import Mathlib

/-! # PX4 serial command pipeline: serial_echo, pwm_hw_out

A shallow embedding of

* `src/modules/serial_echo/serial_echo.cpp` (frame accumulator in `SerialEcho::run`,
  parser `SerialEcho::process_command`),
* `src/modules/pwm_hw_out/pwm_hw_out.cpp` (`PWMHW_OUT::run`, `PWMHW_OUT::stop`).

Conventions.

* A `char` is a natural number (its byte value); memory reachable from a `char *`
  is a `List Nat`.  A C string is the run of bytes before the first NUL.
* `int` values are `Int`; `unsigned`/`uint16_t` conversions are written with an
  explicit `% 2 ^ w`.
* `float` values are IEEE 754 binary32 values (`F32`): NaN, the infinities and the
  finite values; every arithmetic operation rounds its exact result to the nearest
  binary32 value, ties to even.
* Calls into collaborators (the uORB publication, the `up_pwm_*` hardware API)
  are recorded as return values / traces.
-/

/-! ## IEEE 754 binary32 (`float`) -/

/-- A `float` value: NaN, an infinity (`neg` for the negative one), or a finite value
given by the rational it denotes.  The two zeros are identified: the sources never divide
by a variable nor test the sign of a zero, so no operation they perform tells them
apart. -/
inductive F32 where
  | nan
  | inf (neg : Bool)
  | fin (v : ℚ)
  deriving DecidableEq

namespace F32

/-- Rounding of a rational to the nearest integer, ties to even. -/
def roundHalfEven (q : ℚ) : Int :=
  if q - ⌊q⌋ < 1 / 2 then ⌊q⌋
  else if 1 / 2 < q - ⌊q⌋ then ⌊q⌋ + 1
  else if ⌊q⌋ % 2 = 0 then ⌊q⌋ else ⌊q⌋ + 1

/-- The exponent of the unit in the last place of binary32 at `x`: 24 significant bits,
least exponent `-149` (subnormals). -/
def ulpExp (x : ℚ) : Int := max (Int.log 2 |x| - 23) (-149)

/-- The multiple of the unit in the last place nearest to `x`, ties to even. -/
def roundValue (x : ℚ) : ℚ := (roundHalfEven (x / 2 ^ ulpExp x) : ℚ) * 2 ^ ulpExp x

/-- Rounding of an exact result to binary32, round-to-nearest-even; a result of
magnitude `2 ^ 128` or more overflows to an infinity. -/
def round (x : ℚ) : F32 :=
  if x = 0 then fin 0
  else if (2 : ℚ) ^ (128 : Int) ≤ |roundValue x| then inf (decide (x < 0))
  else fin (roundValue x)

/-- The conversion `(float)n` of an `int`. -/
def ofInt (n : Int) : F32 := round (n : ℚ)

/-- The sum `x + y`, rounded. -/
def add : F32 → F32 → F32
  | nan, _ => nan
  | _, nan => nan
  | inf a, inf b => if a = b then inf a else nan
  | inf a, fin _ => inf a
  | fin _, inf b => inf b
  | fin a, fin b => round (a + b)

/-- The product `x * y`, rounded. -/
def mul : F32 → F32 → F32
  | nan, _ => nan
  | _, nan => nan
  | inf a, inf b => inf (a != b)
  | inf a, fin v => if v = 0 then nan else inf (a != decide (v < 0))
  | fin v, inf b => if v = 0 then nan else inf (b != decide (v < 0))
  | fin a, fin b => round (a * b)

/-- The quotient `x / y`, rounded.  A zero divisor is taken as `+0`; the sources divide
by the constant `100.0f` only. -/
def div : F32 → F32 → F32
  | nan, _ => nan
  | _, nan => nan
  | inf _, inf _ => nan
  | inf a, fin v => inf (a != decide (v < 0))
  | fin _, inf _ => fin 0
  | fin a, fin b =>
    if b = 0 then (if a = 0 then nan else inf (decide (a < 0))) else round (a / b)

/-- The comparison `x < y`: false as soon as an operand is NaN. -/
def lt : F32 → F32 → Bool
  | nan, _ => false
  | _, nan => false
  | inf a, inf b => a && !b
  | inf a, fin _ => a
  | fin _, inf b => !b
  | fin a, fin b => decide (a < b)

/-- The conversion `(uint16_t)x`: truncation toward zero, reduced modulo `2 ^ 16`.  For
NaN and the infinities C leaves the conversion undefined.  NaN is given 0, which is what
the conversion instructions of the ARM target (and of x86) produce; the infinities are
given 0 as well, and never reach the conversion in the driver, whose duty clamp removes
them. -/
def toUInt16 : F32 → Nat
  | fin v => ((if 0 ≤ v then ⌊v⌋ else ⌈v⌉) % 2 ^ 16).toNat
  | _ => 0

end F32

/-! ## The uORB message -/

/-- Modelled from the spec: the `pwm_control` uORB message (`uORB/topics/pwm_control.h`
is generated and is not among the sources).  The spec's data model gives a Command the
fields `timestamp`, `port` (integer), `duty` (fractional) and `frequency` (integer);
`duty` is the `float` the sources assign and compare. -/
structure pwm_control_s where
  timestamp : Nat
  port : Int
  duty : F32
  frequency : Int
  deriving DecidableEq

namespace SerialEcho

/-! ## Frame accumulator (`SerialEcho::run`, lines 83-112) -/

/-- The value of `sizeof(cmd_buffer)` for `char cmd_buffer[512]`. -/
def CMD_BUFFER_SIZE : Nat := 512

/-- The locals `cmd_buffer` and `cmd_len` of `run`, which survive from one `read`
to the next. -/
structure Accumulator where
  cmd_buffer : List Nat
  cmd_len : Nat
  deriving DecidableEq

/-- One call `process_command(cmd_buffer, cmd_len, pwm_pub)`: the memory the pointer
`cmd` designates at the time of the call, and `len`. -/
structure Call where
  cmd : List Nat
  len : Nat
  deriving DecidableEq

/-- The frame of a call: the `len` bytes at `cmd`. -/
def Call.frame (c : Call) : List Nat := c.cmd.take c.len

/-- Body of the `for` loop of `run` for the byte `b = buf[i]`:
```
if (cmd_len < (int)sizeof(cmd_buffer)-1) { cmd_buffer[cmd_len++] = buf[i]; }
if (buf[i] == ';') { cmd_buffer[cmd_len] = 0; process_command(cmd_buffer, cmd_len, pwm_pub); cmd_len = 0; }
```
Returns the new state and the calls of `process_command` made (none or one). -/
def feedByte (s : Accumulator) (b : Nat) : Accumulator × List Call :=
  let s1 : Accumulator :=
    if s.cmd_len < CMD_BUFFER_SIZE - 1 then
      { cmd_buffer := s.cmd_buffer.set s.cmd_len b, cmd_len := s.cmd_len + 1 }
    else s
  if b = 59 then
    let mem := s1.cmd_buffer.set s1.cmd_len 0
    ({ cmd_buffer := mem, cmd_len := 0 }, [{ cmd := mem, len := s1.cmd_len }])
  else (s1, [])

/-- The loop `for (int i = 0; i < n; i++)` over the `n` bytes of one `read`. -/
def feed : Accumulator → List Nat → Accumulator × List Call
  | s, [] => (s, [])
  | s, b :: bs =>
    let r := feedByte s b
    let r2 := feed r.1 bs
    (r2.1, r.2 ++ r2.2)

/-- The `while (!should_exit())` loop of `run` over the successive results of `read`;
a `read` that returns nothing (`n <= 0`) is the empty chunk and is skipped. -/
def run : Accumulator → List (List Nat) → Accumulator × List Call
  | s, [] => (s, [])
  | s, chunk :: rest =>
    let r := if 0 < chunk.length then feed s chunk else (s, [])
    let r2 := run r.1 rest
    (r2.1, r.2 ++ r2.2)

/-! ### Reference notions for the accumulator, from the specification -/

/-- The terminator-delimited segments of a stream: `cur` holds the bytes since the
previous `;`; a segment is closed by, and includes, the next `;`. -/
def segmentsFrom : List Nat → List Nat → List (List Nat)
  | _, [] => []
  | cur, b :: bs =>
    if b = 59 then (cur ++ [b]) :: segmentsFrom [] bs else segmentsFrom (cur ++ [b]) bs

/-- The terminator-delimited segments of a whole stream. -/
def segments (input : List Nat) : List (List Nat) := segmentsFrom [] input

/-- The input bytes up to and including the last `;` (nothing when there is none). -/
def uptoLastTerminator : List Nat → List Nat
  | [] => []
  | b :: bs => if b = 59 ∨ 59 ∈ bs then b :: uptoLastTerminator bs else []

/-! ## C library functions used by `process_command` -/

/-- The C string at a pointer: the bytes before the first NUL. -/
def cstr : List Nat → List Nat
  | [] => []
  | c :: mem => if c = 0 then [] else c :: cstr mem

/-- Offset of the first occurrence of `needle` in the string `hay`, scanning left to
right. -/
def strstrFrom (needle : List Nat) : List Nat → Option Nat
  | [] => if needle = [] then some 0 else none
  | c :: cs =>
    if needle.isPrefixOf (c :: cs) then some 0
    else (strstrFrom needle cs).map (fun i => i + 1)

/-- Reference notion: `i` is the offset of the first occurrence of `needle` in `hay`. -/
def FirstOccurrence (needle hay : List Nat) (i : Nat) : Prop :=
  needle <+: hay.drop i ∧ ∀ j < i, ¬ needle <+: hay.drop j

instance (needle hay : List Nat) (i : Nat) : Decidable (FirstOccurrence needle hay i) := by
  unfold FirstOccurrence
  infer_instance

/-- The function `strstr(hay, needle)`: the offset from `hay` of the first occurrence
of the string `needle` in the string `hay`, or `none` for a null pointer. -/
def strstr (hay needle : List Nat) : Option Nat := strstrFrom (cstr needle) (cstr hay)

/-- The function `strncpy(dst, src, n)`: at most `n` characters of the string `src`,
padded with NULs up to `n` bytes, over the start of `dst`. -/
def strncpy (dst src : List Nat) (n : Nat) : List Nat :=
  let s := (cstr src).take n
  s ++ List.replicate (n - s.length) 0 ++ dst.drop n

/-- The function `strncmp(a, b, n)`: difference at the first position, among the first
`n`, where the strings differ; 0 when they do not. -/
def strncmp : List Nat → List Nat → Nat → Int
  | _, _, 0 => 0
  | a, b, n + 1 =>
    let x := a.headD 0
    let y := b.headD 0
    if x ≠ y then (x : Int) - (y : Int)
    else if x = 0 then 0
    else strncmp a.tail b.tail n

/-- The function `memcpy(dst, src, n)`: the first `n` bytes at `src` over the start of
`dst`. -/
def memcpy (dst src : List Nat) (n : Nat) : List Nat := src.take n ++ dst.drop n

/-- The predicate `isspace` in the C locale: space, `\t`, `\n`, `\v`, `\f`, `\r`. -/
def isspace (c : Nat) : Bool := c = 32 || (9 ≤ c && c ≤ 13)

/-- The predicate `isdigit`: `'0'..'9'`. -/
def isdigit (c : Nat) : Bool := 48 ≤ c && c ≤ 57

/-- The digit loop of `atoi`: accumulates the leading run of decimal digits. -/
def atoiDigits : List Nat → Nat → Nat
  | [], acc => acc
  | c :: cs, acc => if isdigit c then atoiDigits cs (acc * 10 + (c - 48)) else acc

/-- The function `atoi(s)`: skips leading white space, takes an optional sign, then
reads the leading run of decimal digits (0 when there is none).  The fields it is
applied to hold at most 4 characters, so `int` overflow does not arise. -/
def atoi (s : List Nat) : Int :=
  match s.dropWhile isspace with
  | 45 :: r => -(atoiDigits r 0 : Int)
  | 43 :: r => (atoiDigits r 0 : Int)
  | r => (atoiDigits r 0 : Int)

/-! ## Command parser (`SerialEcho::process_command`, lines 125-170) -/

/-- The literal `"-prints:"`. -/
def PREFIX : List Nat := [45, 112, 114, 105, 110, 116, 115, 58]

/-- The literal `"AA"`. -/
def OPCODE_AA : List Nat := [65, 65]

/-- The method `process_command(cmd, len, pub)`.  `cmd` is the memory at the pointer
(a frame, NUL-terminated by the caller; the end of the list also ends the string),
`now` the value of `hrt_absolute_time()`.  The result is the message handed to
`pub.publish`, or `none` on each `return` that publishes nothing. -/
def process_command (cmd : List Nat) (len : Int) (now : Nat) : Option pwm_control_s :=
  if len ≤ 0 then none
  else
    match strstr cmd PREFIX with
    | none => none
    | some i =>
      let p := i + 8
      let cmd_len : Int := len - (p : Int) - 1
      if cmd_len ≤ 0 ∨ cmd_len ≥ 32 then none
      else
        let cbuf := strncpy (List.replicate 32 0) (cmd.drop p) cmd_len.toNat
        if strncmp cbuf OPCODE_AA 2 = 0 ∧ cmd_len ≥ 8 then
          let port_str := memcpy [0, 0, 0] (cbuf.drop 2) 2
          let duty_str := memcpy [0, 0, 0] (cbuf.drop 4) 2
          let freq_str := memcpy [0, 0, 0, 0, 0] (cbuf.drop 6) 4
          some { timestamp := now
                 port := atoi port_str
                 duty := F32.div (F32.ofInt (atoi duty_str)) (F32.fin 100)
                 frequency := atoi freq_str }
        else none

/-- The frame `f` as the parser receives it from `run`: `len` is its length and the
byte after it is NUL. -/
def parseFrame (f : List Nat) (now : Nat) : Option pwm_control_s :=
  process_command (f ++ [0]) f.length now

/-! ### Encoding of well-formed frames, from the wire grammar -/

/-- A number as `w` zero-padded decimal digits (ASCII). -/
def padDigits : Nat → Nat → List Nat
  | 0, _ => []
  | w + 1, n => padDigits w (n / 10) ++ [48 + n % 10]

/-- The frame `-prints:AA<PP><DD><FFFF>;`. -/
def encodeAA (pp dd ffff : Nat) : List Nat :=
  PREFIX ++ OPCODE_AA ++ padDigits 2 pp ++ padDigits 2 dd ++ padDigits 4 ffff ++ [59]

/-- The port field of the bytes that follow the opcode: 2 characters. -/
def portField (fields : List Nat) : List Nat := fields.take 2

/-- The duty field of the bytes that follow the opcode: the next 2 characters. -/
def dutyField (fields : List Nat) : List Nat := (fields.drop 2).take 2

/-- The frequency field of the bytes that follow the opcode: the next 4 characters (fewer
when the payload ends before). -/
def freqField (fields : List Nat) : List Nat := (fields.drop 4).take 4

/-- A field without any decimal digit. -/
def NoDigit (field : List Nat) : Prop := ∀ c ∈ field, isdigit c = false

instance (field : List Nat) : Decidable (NoDigit field) := by
  unfold NoDigit
  infer_instance

/-- A field whose first character is neither a digit, nor white space, nor a sign. -/
def StartsNonNumeric (field : List Nat) : Prop :=
  ∀ c ∈ field.head?, isdigit c = false ∧ isspace c = false ∧ c ≠ 43 ∧ c ≠ 45

instance (field : List Nat) : Decidable (StartsNonNumeric field) := by
  unfold StartsNonNumeric
  infer_instance

/-- The bytes of a string literal. -/
def bytes (s : String) : List Nat := s.toList.map Char.toNat

end SerialEcho

namespace PWMHW_OUT

/-! ## PWM actuation driver (`pwm_hw_out.cpp`) -/

/-- The constant `MAX_PORTS`. -/
def MAX_PORTS : Nat := 8

/-- The constant `ALL_MASK = ((1u << MAX_PORTS) - 1)`. -/
def ALL_MASK : Nat := ((1 <<< MAX_PORTS) - 1) % 2 ^ 32

/-- A call of the hardware PWM interface declared `extern "C"` in the file. -/
inductive HwCall where
  | up_pwm_servo_init (pwm_mask : Nat)
  | up_pwm_servo_set (channel : Nat) (pwm : Nat)
  | up_pwm_servo_deinit (pwm_mask : Nat)
  | up_pwm_update (pwm_mask : Nat)
  | up_pwm_servo_arm (arm : Bool) (pwm_mask : Nat)
  deriving DecidableEq, Repr

/-- The mutable member of the class. -/
structure Driver where
  _initialized : Bool
  deriving DecidableEq, Repr

/-- The object after construction: `bool _initialized{false}`. -/
def Driver.new : Driver := { _initialized := false }

/-- The method `stop()`: disarm and deinit when initialized. -/
def stop (s : Driver) : Driver × List HwCall :=
  if s._initialized then
    ({ _initialized := false },
      [HwCall.up_pwm_servo_arm false ALL_MASK, HwCall.up_pwm_servo_deinit ALL_MASK])
  else (s, [])

/-- The two statements `if (duty < 0.0f) duty = 0.0f; if (duty > 1.0f) duty = 1.0f;`.
Both comparisons are false for NaN, which is left as it is. -/
def clampDuty (duty : F32) : F32 :=
  let d := if F32.lt duty (F32.fin 0) then F32.fin 0 else duty
  if F32.lt (F32.fin 1) d then F32.fin 1 else d

/-- The `float` expression `1000 + duty * 1000.0f + 0.5f` on the clamped duty: the `int`
1000 is converted, and the product and the two sums are each rounded. -/
def pulseExpr (duty : F32) : F32 :=
  F32.add (F32.add (F32.ofInt 1000) (F32.mul (clampDuty duty) (F32.fin 1000))) (F32.fin (1 / 2))

/-- The pulse width before the safety clamp:
`(uint16_t)(1000 + duty * 1000.0f + 0.5f)` on the clamped duty. -/
def mapPulse (duty : F32) : Nat := F32.toUInt16 (pulseExpr duty)

/-- The two statements `if (pwm_us < 500) pwm_us = 500; if (pwm_us > 2500) pwm_us = 2500;`. -/
def safetyClamp (pwm_us : Nat) : Nat :=
  let p := if pwm_us < 500 then 500 else pwm_us
  if p > 2500 then 2500 else p

/-- The pulse width handed to the hardware. -/
def pulseWidth (duty : F32) : Nat := safetyClamp (mapPulse duty)

/-- Reference notion: a duty other than NaN clamped to `[0, 1]`, as a rational; the
infinities clamp to the nearer bound.  NaN has no clamped value, 0 stands in for it. -/
def clampedValue : F32 → ℚ
  | F32.fin v => max 0 (min v 1)
  | F32.inf neg => if neg then 0 else 1
  | F32.nan => 0

/-- The conversion `(unsigned)(msg.port - 1)`. -/
def channelOf (port : Int) : Nat := ((port - 1) % 2 ^ 32).toNat

/-- One iteration of the `while` loop of `run`; `upd` is `some msg` when
`_sub.update(&msg)` returns true with the new message and `none` when it returns
false. -/
def step (s : Driver) (upd : Option pwm_control_s) : Driver × List HwCall :=
  match upd with
  | none => (s, [])
  | some msg =>
    if msg.port < 1 ∨ msg.port > (MAX_PORTS : Int) then (s, [])
    else
      let pwm_us := pulseWidth msg.duty
      let channel := channelOf msg.port
      if s._initialized then
        (s, [HwCall.up_pwm_servo_set channel pwm_us, HwCall.up_pwm_update ALL_MASK])
      else (s, [])

/-- The `while (!should_exit())` loop over the successive polls of the subscription. -/
def loop : Driver → List (Option pwm_control_s) → Driver × List HwCall
  | s, [] => (s, [])
  | s, u :: us =>
    let r := step s u
    let r2 := loop r.1 us
    (r2.1, r.2 ++ r2.2)

/-- The start of `run`: `up_pwm_servo_init(ALL_MASK)` returns `ret`. -/
def start (s : Driver) (ret : Int) : Driver × List HwCall :=
  if ret < 0 then (s, [HwCall.up_pwm_servo_init ALL_MASK])
  else
    ({ _initialized := true },
      [HwCall.up_pwm_servo_init ALL_MASK, HwCall.up_pwm_servo_arm true ALL_MASK])

/-- The method `run()`: initialisation, the command loop, then `stop()`. -/
def run (s : Driver) (ret : Int) (polls : List (Option pwm_control_s)) :
    Driver × List HwCall :=
  let r0 := start s ret
  let r1 := loop r0.1 polls
  let r2 := stop r1.1
  (r2.1, r0.2 ++ r1.2 ++ r2.2)

/-! ### Reference notions for the driver trace, from the specification -/

/-- The hardware writes a sequence of polls asks for: one `(channel, pulse width)` per
Command whose port lies in `[1, MAX_PORTS]`. -/
def writes : List (Option pwm_control_s) → List (Nat × Nat)
  | [] => []
  | none :: us => writes us
  | some msg :: us =>
    if 1 ≤ msg.port ∧ msg.port ≤ 8 then (channelOf msg.port, pulseWidth msg.duty) :: writes us
    else writes us

/-- A run of set/update pairs: `up_pwm_servo_set(channel, pulse)` then
`up_pwm_update(ALL_MASK)` for each write. -/
def setUpdatePairs : List (Nat × Nat) → List HwCall
  | [] => []
  | w :: ws =>
    HwCall.up_pwm_servo_set w.1 w.2 :: HwCall.up_pwm_update ALL_MASK :: setUpdatePairs ws

end PWMHW_OUT

namespace SerialEcho

/-- The indices of `cmd_buffer` written by the loop body of `run` for the byte `b`:
`cmd_len` for `cmd_buffer[cmd_len++] = buf[i]` when the guard holds, then the updated
`cmd_len` for `cmd_buffer[cmd_len] = 0` when `b` is `;`. -/
def writeIndices (s : Accumulator) (b : Nat) : List Nat :=
  let w := if s.cmd_len < CMD_BUFFER_SIZE - 1 then [s.cmd_len] else []
  let len1 := if s.cmd_len < CMD_BUFFER_SIZE - 1 then s.cmd_len + 1 else s.cmd_len
  if b = 59 then w ++ [len1] else w

end SerialEcho

namespace MavlinkStreamPWM_CONTROL

/-! ## Telemetry stream (`MAVLinkStreamPWM_CONTROL.hpp`) -/

/-- Modelled from the spec: the telemetry message `mavlink_pwm_control_t` (its generated
header `mavlink_msg_pwm_control.h` is not among the sources).  The spec lists the outbound
fields `time_usec`, `port`, `duty`, `frequency`; they are given the types of the
corresponding Command fields. -/
structure mavlink_pwm_control_t where
  time_usec : Nat
  port : Int
  duty : F32
  frequency : Int
  deriving DecidableEq

/-- The method `get_size()`.  `advertised` is the result of `_sub.advertised()`; `len` and
`non_payload` are the values of the macros `MAVLINK_MSG_ID_PWM_CONTROL_LEN` and
`MAVLINK_NUM_NON_PAYLOAD_BYTES`, whose headers are not among the sources.  The result is
an `unsigned`. -/
def get_size (len non_payload : Nat) (advertised : Bool) : Nat :=
  if advertised then (len + non_payload) % 2 ^ 32 else 0

/-- The method `send()`.  `upd` is `some msg` when `_sub.update(&msg)` returns true with
the new message, `none` when it returns false.  The result is the returned `bool` and the
messages handed to `mavlink_msg_pwm_control_send_struct`. -/
def send (upd : Option pwm_control_s) : Bool × List mavlink_pwm_control_t :=
  match upd with
  | some msg =>
    (true, [{ time_usec := msg.timestamp
              port := msg.port
              duty := msg.duty
              frequency := msg.frequency }])
  | none => (false, [])

end MavlinkStreamPWM_CONTROL

namespace serial_app

/-! ## Serial example (`serial_app.cpp`, `serial_app_thread`) -/

/-- The decimal digits of a natural number, as ASCII bytes. -/
def decimalNat (n : Nat) : List Nat := (Nat.toDigits 10 n).map Char.toNat

/-- The text `printf` produces for `%d`. -/
def fmt_d (n : Int) : List Nat :=
  if n < 0 then 45 :: decimalNat (-n).toNat else decimalNat n.toNat

/-- The call `snprintf(out_msg, sizeof(out_msg), ...)` for `char out_msg[16]`: the text,
cut to 15 characters, then NUL. -/
def snprintf16 (text : List Nat) : List Nat := text.take 15 ++ [0]

/-- The bytes `"\r\n"`. -/
def CRLF : List Nat := [13, 10]

/-- The bytes `"NONE\r\n"`. -/
def NONE_CRLF : List Nat := [78, 79, 78, 69, 13, 10]

/-- The body of the `for` loop of `serial_app_thread` for the received byte `c`: the bytes
handed to `write(uart_fd, out_msg, strlen(out_msg))`. -/
def reply (c : Nat) : List Nat :=
  let out_msg :=
    if SerialEcho.isdigit c then
      let num : Int := (c : Int) - 48 + 1
      let num := if num ≥ 10 then 0 else num
      snprintf16 (fmt_d num ++ CRLF)
    else snprintf16 NONE_CRLF
  SerialEcho.cstr out_msg

end serial_app

namespace uORB

/-! ## Command bus -/

/-- Modelled from the spec: the topic slot of the Command Bus (§3, §4.3, §9; the uORB
`Publication` and `Subscription` classes are not among the sources).  It holds at most one
Command and a version counter; it is created empty. -/
structure Topic where
  value : Option pwm_control_s
  version : Nat
  deriving DecidableEq

/-- Modelled from the spec: the topic is advertised once it has been published (§4.5). -/
def advertised (t : Topic) : Bool := t.value.isSome

end uORB

/-! # Theorems -/

namespace F32

/-! ## Binary32 rounding lemmas -/

theorem roundHalfEven_sub_abs (q : ℚ) : |(roundHalfEven q : ℚ) - q| ≤ 1 / 2 := by
  have h1 := Int.floor_le q
  have h2 := Int.lt_floor_add_one q
  unfold roundHalfEven
  rw [abs_le]
  split_ifs with a b c
  · constructor <;> linarith
  · push_cast; constructor <;> linarith
  · have : q - ⌊q⌋ = 1 / 2 := le_antisymm (not_lt.mp b) (not_lt.mp a)
    constructor <;> linarith
  · have : q - ⌊q⌋ = 1 / 2 := le_antisymm (not_lt.mp b) (not_lt.mp a)
    push_cast; constructor <;> linarith

theorem roundHalfEven_intCast (n : Int) : roundHalfEven (n : ℚ) = n := by
  unfold roundHalfEven
  simp

theorem roundHalfEven_eq_of_lt (q : ℚ) (n : Int) (h1 : q - 1 / 2 < n) (h2 : (n : ℚ) < q + 1 / 2) :
    roundHalfEven q = n := by
  have hb := roundHalfEven_sub_abs q
  rw [abs_le] at hb
  have h3 : ((roundHalfEven q - n : Int) : ℚ) < 1 := by push_cast; linarith
  have h4 : (-1 : ℚ) < ((roundHalfEven q - n : Int) : ℚ) := by push_cast; linarith
  have h5 : roundHalfEven q - n < 1 := by exact_mod_cast h3
  have h6 : -1 < roundHalfEven q - n := by exact_mod_cast h4
  omega

theorem two_zpow_pos (k : Int) : (0 : ℚ) < 2 ^ k := zpow_pos (by norm_num) k

theorem log_lt_of_lt (x : ℚ) (E : Int) (h0 : x ≠ 0) (hx : |x| < 2 ^ E) : Int.log 2 |x| < E := by
  have h := (Int.lt_zpow_iff_log_lt (R := ℚ) (b := 2) (by norm_num) (x := E) (r := |x|)
    (abs_pos.mpr h0)).mp (by simpa using hx)
  exact h

theorem le_log_of_le (x : ℚ) (e : Int) (h0 : x ≠ 0) (hx : 2 ^ e ≤ |x|) : e ≤ Int.log 2 |x| := by
  have h := (Int.zpow_le_iff_le_log (R := ℚ) (b := 2) (by norm_num) (x := e) (r := |x|)
    (abs_pos.mpr h0)).mp (by simpa using hx)
  exact h

theorem ulpExp_le (x : ℚ) (E : Int) (h0 : x ≠ 0) (hx : |x| < 2 ^ E) (hE : -125 ≤ E) :
    ulpExp x ≤ E - 24 := by
  have := log_lt_of_lt x E h0 hx
  unfold ulpExp
  omega

theorem ulpExp_eq (x : ℚ) (e : Int) (h0 : x ≠ 0) (h1 : 2 ^ e ≤ |x|) (h2 : |x| < 2 ^ (e + 1))
    (he : -126 ≤ e) : ulpExp x = e - 23 := by
  have a := log_lt_of_lt x (e + 1) h0 h2
  have b := le_log_of_le x e h0 h1
  unfold ulpExp
  omega

theorem roundValue_error (x : ℚ) : |roundValue x - x| ≤ 2 ^ ulpExp x / 2 := by
  have hp := two_zpow_pos (ulpExp x)
  have h := roundHalfEven_sub_abs (x / 2 ^ ulpExp x)
  have e : roundValue x - x
      = ((roundHalfEven (x / 2 ^ ulpExp x) : ℚ) - x / 2 ^ ulpExp x) * 2 ^ ulpExp x := by
    unfold roundValue
    field_simp
  rw [e, abs_mul, abs_of_pos hp]
  calc |(roundHalfEven (x / 2 ^ ulpExp x) : ℚ) - x / 2 ^ ulpExp x| * 2 ^ ulpExp x
      ≤ 1 / 2 * 2 ^ ulpExp x := mul_le_mul_of_nonneg_right h (le_of_lt hp)
    _ = 2 ^ ulpExp x / 2 := by ring

/-- The rounding error: a result of magnitude below `2 ^ E` (in the normal range) rounds
to a finite value at most `2 ^ (E - 25)` away. -/
theorem round_error (x : ℚ) (E : Int) (hx : |x| < 2 ^ E) (hE1 : -125 ≤ E) (hE2 : E ≤ 127) :
    ∃ y, round x = fin y ∧ |y - x| ≤ 2 ^ (E - 25) := by
  by_cases h0 : x = 0
  · refine ⟨0, by simp [round, h0], ?_⟩
    rw [h0]; simp
    exact le_of_lt (two_zpow_pos _)
  · have hk := ulpExp_le x E h0 hx hE1
    have herr := roundValue_error x
    have hpow : (2 : ℚ) ^ ulpExp x / 2 ≤ 2 ^ (E - 25) := by
      have h1 : (2 : ℚ) ^ ulpExp x ≤ 2 ^ (E - 24) := zpow_le_zpow_right₀ (by norm_num) hk
      have h2 : (2 : ℚ) ^ (E - 24) = 2 ^ (E - 25) * 2 := by
        rw [show E - 24 = (E - 25) + 1 by ring, zpow_add₀ (by norm_num), zpow_one]
      linarith
    have hle : |roundValue x - x| ≤ 2 ^ (E - 25) := le_trans herr hpow
    have hsmall : (2 : ℚ) ^ (E - 25) ≤ 2 ^ E := zpow_le_zpow_right₀ (by norm_num) (by omega)
    have hbig : (2 : ℚ) ^ (E + 1) ≤ 2 ^ (128 : Int) := zpow_le_zpow_right₀ (by norm_num) (by omega)
    have hE1' : (2 : ℚ) ^ (E + 1) = 2 ^ E * 2 := by rw [zpow_add₀ (by norm_num), zpow_one]
    have hfin : ¬ (2 : ℚ) ^ (128 : Int) ≤ |roundValue x| := by
      have : |roundValue x| ≤ |roundValue x - x| + |x| := by
        have := abs_add (roundValue x - x) x
        simpa using this
      intro hc
      linarith
    exact ⟨roundValue x, by simp [round, h0, hfin], hle⟩

/-- A rational `m * 2 ^ j` with `|m| < 2 ^ 24` and `j` in the exponent range is a
binary32 value: rounding leaves it unchanged. -/
theorem round_exact (m j : Int) (hj : -149 ≤ j) (hj2 : j ≤ 104)
    (hm : |(m : ℚ) * 2 ^ j| < 2 ^ (j + 24)) : round ((m : ℚ) * 2 ^ j) = fin ((m : ℚ) * 2 ^ j) := by
  by_cases h0 : (m : ℚ) * 2 ^ j = 0
  · simp [round, h0]
  · have hk : ulpExp ((m : ℚ) * 2 ^ j) ≤ j := by
      have := log_lt_of_lt _ (j + 24) h0 hm
      unfold ulpExp
      omega
    obtain ⟨d, hd⟩ : ∃ d : Nat, j = ulpExp ((m : ℚ) * 2 ^ j) + d :=
      ⟨(j - ulpExp ((m : ℚ) * 2 ^ j)).toNat, by omega⟩
    have hq : (m : ℚ) * 2 ^ j / 2 ^ ulpExp ((m : ℚ) * 2 ^ j) = ((m * 2 ^ d : Int) : ℚ) := by
      have hp := two_zpow_pos (ulpExp ((m : ℚ) * 2 ^ j))
      rw [div_eq_iff (ne_of_gt hp)]
      conv_lhs => rw [hd]
      rw [zpow_add₀ (by norm_num), zpow_natCast]
      push_cast
      ring
    have hv : roundValue ((m : ℚ) * 2 ^ j) = (m : ℚ) * 2 ^ j := by
      have hp := two_zpow_pos (ulpExp ((m : ℚ) * 2 ^ j))
      unfold roundValue
      rw [hq, roundHalfEven_intCast, ← hq]
      field_simp
    have hbig : (2 : ℚ) ^ (j + 24) ≤ 2 ^ (128 : Int) := zpow_le_zpow_right₀ (by norm_num) (by omega)
    have hfin : ¬ (2 : ℚ) ^ (128 : Int) ≤ |roundValue ((m : ℚ) * 2 ^ j)| := by
      rw [hv]; intro hc; linarith
    simp only [round, h0, if_false, hfin]
    rw [hv]

theorem round_intCast (n : Int) (hn : |n| < 2 ^ 24) : round (n : ℚ) = fin (n : ℚ) := by
  have hq : |(n : ℚ)| < 2 ^ (24 : Int) := by
    have h : |(n : ℚ)| < 2 ^ (24 : Nat) := by exact_mod_cast hn
    rw [show (24 : Int) = ((24 : Nat) : Int) by rfl, zpow_natCast]
    exact h
  have h := round_exact n 0 (by norm_num) (by norm_num) (by simpa using hq)
  simpa using h

/-- Evaluation of a rounding: for `2 ^ e ≤ |x| < 2 ^ (e + 1)` the result is `n` units in
the last place, `n` being the integer strictly within 1/2 of `x / 2 ^ (e - 23)`. -/
theorem round_eval (x : ℚ) (e n : Int) (h1 : 2 ^ e ≤ |x|) (h2 : |x| < 2 ^ (e + 1))
    (he : -126 ≤ e) (he2 : e ≤ 126)
    (hn1 : x / 2 ^ (e - 23) - 1 / 2 < n) (hn2 : (n : ℚ) < x / 2 ^ (e - 23) + 1 / 2) :
    round x = fin ((n : ℚ) * 2 ^ (e - 23)) := by
  have h0 : x ≠ 0 := by
    intro h
    have := two_zpow_pos e
    rw [h] at h1
    simp at h1
    linarith
  obtain ⟨y, hy, _⟩ := round_error x (e + 1) h2 (by omega) (by omega)
  have hk := ulpExp_eq x e h0 h1 h2 he
  have hv : roundValue x = (n : ℚ) * 2 ^ (e - 23) := by
    unfold roundValue
    rw [hk, roundHalfEven_eq_of_lt _ n hn1 hn2]
  have hr : round x = fin (roundValue x) ∨ ∃ b, round x = inf b := by
    unfold round
    simp only [h0, if_false]
    split_ifs
    · exact Or.inr ⟨_, rfl⟩
    · exact Or.inl rfl
  rcases hr with hr | ⟨b, hb⟩
  · rw [hr, hv]
  · rw [hb] at hy; cases hy

end F32

namespace SerialEcho

/-! ## Accumulator lemmas -/

theorem take_set_of_le {α : Type} (l : List α) (m n : Nat) (a : α) (h : m ≤ n) :
    (l.set n a).take m = l.take m := by
  rw [List.set_take]
  exact List.set_eq_of_length_le (by simp; omega)

theorem take_succ_set {α : Type} (l : List α) (k : Nat) (a : α) (h : k < l.length) :
    (l.set k a).take (k + 1) = l.take k ++ [a] := by
  rw [List.take_succ, take_set_of_le _ _ _ _ (le_refl k)]
  simp [h]

theorem feed_append (s : Accumulator) (a b : List Nat) :
    feed s (a ++ b) = ((feed (feed s a).1 b).1, (feed s a).2 ++ (feed (feed s a).1 b).2) := by
  induction a generalizing s with
  | nil => simp [feed]
  | cons x xs ih => simp [feed, ih, List.append_assoc]

theorem run_eq_feed (s : Accumulator) (chunks : List (List Nat)) :
    run s chunks = feed s chunks.flatten := by
  induction chunks generalizing s with
  | nil => simp [run, feed]
  | cons c cs ih =>
    rw [List.flatten_cons, feed_append, run, ih]
    by_cases hc : 0 < c.length
    · simp [hc]
    · have : c = [] := by
        cases c with
        | nil => rfl
        | cons _ _ => simp at hc
      subst this
      simp [feed]

/-- The frames of the calls made while feeding `input` are the segments of the stream,
each cut to the 511 bytes the buffer can hold. -/
theorem feed_frames (input : List Nat) : ∀ (s : Accumulator) (cur : List Nat),
    s.cmd_buffer.length = 512 → s.cmd_len = min cur.length 511 →
    s.cmd_buffer.take s.cmd_len = cur.take 511 →
    (feed s input).2.map Call.frame = (segmentsFrom cur input).map (List.take 511) := by
  induction input with
  | nil => intro s cur _ _ _; simp [feed, segmentsFrom]
  | cons b bs ih =>
    intro s cur hlen hk htake
    by_cases hb : b = 59
    · subst hb
      have hrest := ih ⟨(if s.cmd_len < 511 then s.cmd_buffer.set s.cmd_len 59
          else s.cmd_buffer).set (if s.cmd_len < 511 then s.cmd_len + 1 else s.cmd_len) 0, 0⟩ []
          (by split <;> simp [hlen]) (by simp) (by simp)
      by_cases hfull : s.cmd_len < 511
      · have hcur : cur.length = s.cmd_len := by omega
        have hcur2 : cur.take 511 = cur := List.take_of_length_le (by omega)
        simp only [hfull, if_true] at hrest
        simp only [feed, feedByte, CMD_BUFFER_SIZE, hfull, if_true, segmentsFrom,
          List.map_append, List.map_cons, List.map_nil, List.singleton_append, hrest]
        congr 1
        simp only [Call.frame]
        rw [take_set_of_le _ _ _ _ (le_refl _), take_succ_set _ _ _ (by omega), htake, hcur2,
          List.take_of_length_le (by simp; omega)]
      · have hk2 : s.cmd_len = 511 := by omega
        have hcur : 511 ≤ cur.length := by omega
        simp only [hfull, if_false] at hrest
        simp only [feed, feedByte, CMD_BUFFER_SIZE, hfull, if_false, if_true, segmentsFrom,
          List.map_append, List.map_cons, List.map_nil, List.singleton_append, hrest]
        congr 1
        simp only [Call.frame]
        rw [take_set_of_le _ _ _ _ (le_refl _), htake, List.take_append_of_le_length hcur]
    · by_cases hfull : s.cmd_len < 511
      · have hcur : cur.length = s.cmd_len := by omega
        have hcur2 : cur.take 511 = cur := List.take_of_length_le (by omega)
        have hrest := ih ⟨s.cmd_buffer.set s.cmd_len b, s.cmd_len + 1⟩ (cur ++ [b])
          (by simp [hlen]) (by simp; omega)
          (by
            show List.take (s.cmd_len + 1) (s.cmd_buffer.set s.cmd_len b) = _
            rw [take_succ_set _ _ _ (by omega), htake, hcur2,
              List.take_of_length_le (by simp; omega)])
        simp only [feed, feedByte, CMD_BUFFER_SIZE, hfull, if_true, hb, if_false, segmentsFrom,
          List.nil_append, hrest]
      · have hk2 : s.cmd_len = 511 := by omega
        have hcur : 511 ≤ cur.length := by omega
        have hrest := ih s (cur ++ [b]) hlen (by simp; omega)
          (by rw [htake, List.take_append_of_le_length hcur])
        simp only [feed, feedByte, CMD_BUFFER_SIZE, hfull, if_false, hb, segmentsFrom,
          List.nil_append, hrest]

theorem segmentsFrom_flatten (input : List Nat) : ∀ cur : List Nat,
    (segmentsFrom cur input).flatten
      = if 59 ∈ input then cur ++ uptoLastTerminator input else [] := by
  induction input with
  | nil => intro cur; simp [segmentsFrom]
  | cons b bs ih =>
    intro cur
    by_cases hb : b = 59
    · subst hb
      simp only [segmentsFrom, if_true, List.flatten_cons, ih, List.nil_append, List.mem_cons,
        true_or, uptoLastTerminator]
      by_cases hm : 59 ∈ bs
      · simp [hm]
      · have hu : uptoLastTerminator bs = [] := by
          cases bs with
          | nil => rfl
          | cons x xs =>
            simp only [List.mem_cons, not_or] at hm
            simp [uptoLastTerminator, hm.2, Ne.symm hm.1]
        simp [hm, hu]
    · have hb2 : ¬ (59 = b) := fun h => hb h.symm
      simp only [segmentsFrom, hb, if_false, ih, List.mem_cons, hb2, false_or, uptoLastTerminator]
      by_cases hm : 59 ∈ bs
      · simp [hm]
      · simp [hm]


theorem uptoLastTerminator_of_not_mem (input : List Nat) (h : 59 ∉ input) :
    uptoLastTerminator input = [] := by
  cases input with
  | nil => rfl
  | cons x xs =>
    simp only [List.mem_cons, not_or] at h
    simp [uptoLastTerminator, h.2, Ne.symm h.1]

/-- C1: when every terminator-delimited segment of the stream has at most 511 bytes, the
frames handed to `process_command`, in order, are exactly those segments, and their
concatenation is the input up to and including the last `;`: no byte is dropped,
duplicated or reordered and the bytes after the last `;` are in no frame.  This holds
for every initial content of the 512-byte buffer and every division of the stream into
reads. -/
theorem run_frames_concat_eq_input (buf0 : List Nat) (chunks : List (List Nat))
    (hbuf : buf0.length = CMD_BUFFER_SIZE)
    (hseg : ∀ seg ∈ segments chunks.flatten, seg.length ≤ 511) :
    (run ⟨buf0, 0⟩ chunks).2.map Call.frame = segments chunks.flatten ∧
    ((run ⟨buf0, 0⟩ chunks).2.map Call.frame).flatten = uptoLastTerminator chunks.flatten := by
  have hframes : (run ⟨buf0, 0⟩ chunks).2.map Call.frame = segments chunks.flatten := by
    rw [run_eq_feed, feed_frames chunks.flatten ⟨buf0, 0⟩ [] hbuf (by simp) (by simp)]
    unfold segments at hseg ⊢
    calc (segmentsFrom [] chunks.flatten).map (List.take 511)
        = (segmentsFrom [] chunks.flatten).map id :=
          List.map_congr_left (fun seg hs => List.take_of_length_le (hseg seg hs))
      _ = segmentsFrom [] chunks.flatten := List.map_id _
  refine ⟨hframes, ?_⟩
  rw [hframes, segments, segmentsFrom_flatten]
  by_cases hm : 59 ∈ chunks.flatten
  · rw [if_pos hm, List.nil_append]
  · rw [if_neg hm, uptoLastTerminator_of_not_mem _ hm]

theorem run_frames_concat_eq_input_witness :
    (List.replicate 512 7).length = CMD_BUFFER_SIZE ∧
    (∀ seg ∈ segments [[45, 59, 1], [], [2, 59, 59, 3]].flatten, seg.length ≤ 511) ∧
    (run ⟨List.replicate 512 7, 0⟩ [[45, 59, 1], [], [2, 59, 59, 3]]).2.map Call.frame
      = [[45, 59], [1, 2, 59], [59]] ∧
    ((run ⟨List.replicate 512 7, 0⟩ [[45, 59, 1], [], [2, 59, 59, 3]]).2.map Call.frame).flatten
      = [45, 59, 1, 2, 59, 59] :=
  ⟨List.length_replicate 512 7, by decide,
    (run_frames_concat_eq_input (List.replicate 512 7) [[45, 59, 1], [], [2, 59, 59, 3]]
      (List.length_replicate 512 7) (by decide)).1.trans (by decide),
    (run_frames_concat_eq_input (List.replicate 512 7) [[45, 59, 1], [], [2, 59, 59, 3]]
      (List.length_replicate 512 7) (by decide)).2.trans (by decide)⟩


/-! ## C string lemmas -/

theorem strstrFrom_eq_some_iff (needle : List Nat) (hn : needle ≠ []) (hay : List Nat) :
    ∀ i, strstrFrom needle hay = some i ↔ FirstOccurrence needle hay i := by
  induction hay with
  | nil =>
    intro i
    simp only [strstrFrom, hn, if_false, FirstOccurrence, List.drop_nil, List.prefix_nil]
    simp [hn]
  | cons c cs ih =>
    intro i
    by_cases hp : needle <+: c :: cs
    · have hp2 : needle.isPrefixOf (c :: cs) = true := List.isPrefixOf_iff_prefix.mpr hp
      simp only [strstrFrom, hp2, if_true, FirstOccurrence]
      constructor
      · intro h
        have hi : i = 0 := by simpa using h.symm
        subst hi
        exact ⟨by simpa using hp, fun j hj => absurd hj (Nat.not_lt_zero j)⟩
      · rintro ⟨_, h2⟩
        cases i with
        | zero => rfl
        | succ k => exact absurd (by simpa using hp) (h2 0 (Nat.succ_pos k))
    · have hp2 : ¬ needle.isPrefixOf (c :: cs) = true := fun h => hp (List.isPrefixOf_iff_prefix.mp h)
      simp only [strstrFrom, hp2, if_false, FirstOccurrence]
      cases i with
      | zero =>
        constructor
        · intro h
          cases hs : strstrFrom needle cs <;> simp [hs] at h
        · rintro ⟨h1, _⟩
          exact absurd (by simpa using h1) hp
      | succ k =>
        have := ih k
        constructor
        · intro h
          have hk : strstrFrom needle cs = some k := by
            cases hs : strstrFrom needle cs with
            | none => simp [hs] at h
            | some m => simp [hs] at h; simp [h]
          obtain ⟨h1, h2⟩ := (ih k).mp hk
          refine ⟨by simpa using h1, ?_⟩
          intro j hj
          cases j with
          | zero => simpa using hp
          | succ m => simpa using h2 m (by omega)
        · rintro ⟨h1, h2⟩
          have hk : strstrFrom needle cs = some k :=
            (ih k).mpr ⟨by simpa using h1, fun j hj => by simpa using h2 (j + 1) (by omega)⟩
          simp [hk]

theorem strstrFrom_eq_none_iff (needle : List Nat) (hn : needle ≠ []) (hay : List Nat) :
    strstrFrom needle hay = none ↔ ∀ i, ¬ needle <+: hay.drop i := by
  induction hay with
  | nil => simp [strstrFrom, hn]
  | cons c cs ih =>
    by_cases hp : needle <+: c :: cs
    · have hp2 : needle.isPrefixOf (c :: cs) = true := List.isPrefixOf_iff_prefix.mpr hp
      rw [strstrFrom, if_pos hp2]
      constructor
      · intro h; cases h
      · intro h; exact absurd (by simpa using hp) (h 0)
    · have hp2 : ¬ needle.isPrefixOf (c :: cs) = true := fun h => hp (List.isPrefixOf_iff_prefix.mp h)
      rw [strstrFrom, if_neg hp2, Option.map_eq_none', ih]
      constructor
      · intro h i
        cases i with
        | zero => simpa using hp
        | succ k => simpa using h k
      · intro h i
        simpa using h (i + 1)

theorem cstr_PREFIX : cstr PREFIX = PREFIX := by decide

theorem cstr_append_zero (f rest : List Nat) : cstr (f ++ 0 :: rest) = cstr f := by
  induction f with
  | nil => simp [cstr]
  | cons c cs ih =>
    by_cases hc : c = 0
    · simp [cstr, hc]
    · simp [cstr, hc, ih]

theorem cstr_drop (mem : List Nat) (p : Nat) (hp : p ≤ (cstr mem).length) :
    cstr (mem.drop p) = (cstr mem).drop p := by
  induction mem generalizing p with
  | nil => simp [cstr]
  | cons c cs ih =>
    cases p with
    | zero => simp
    | succ k =>
      by_cases hc : c = 0
      · simp [cstr, hc] at hp
      · simp only [cstr, hc, if_false, List.length_cons, Nat.add_le_add_iff_right] at hp
        simp [cstr, hc, ih k hp]


theorem cstr_append_of_not_mem (a b : List Nat) (h : 0 ∉ a) : cstr (a ++ b) = a ++ cstr b := by
  induction a with
  | nil => rfl
  | cons c cs ih =>
    simp only [List.mem_cons, not_or] at h
    have hc : ¬ c = 0 := fun e => h.1 e.symm
    simp [cstr, hc, ih h.2]

theorem atoiDigits_append_zero (s r : List Nat) : ∀ acc,
    atoiDigits (s ++ 0 :: r) acc = atoiDigits s acc := by
  induction s with
  | nil => intro acc; simp [atoiDigits, isdigit]
  | cons c cs ih =>
    intro acc
    by_cases hd : isdigit c = true
    · simp [atoiDigits, hd, ih]
    · simp [atoiDigits, hd]

theorem atoi_append_zero (s r : List Nat) : atoi (s ++ 0 :: r) = atoi s := by
  induction s with
  | nil => simp [atoi, isspace, atoiDigits, isdigit]
  | cons c cs ih =>
    by_cases hs : isspace c = true
    · have e1 : atoi (c :: cs ++ 0 :: r) = atoi (cs ++ 0 :: r) := by
        simp [atoi, List.dropWhile_cons, hs]
      have e2 : atoi (c :: cs) = atoi cs := by
        simp [atoi, List.dropWhile_cons, hs]
      rw [e1, e2, ih]
    · have d1 : (c :: cs ++ 0 :: r).dropWhile isspace = c :: (cs ++ 0 :: r) := by
        simp [List.dropWhile_cons, hs]
      have d2 : (c :: cs).dropWhile isspace = c :: cs := by
        simp [List.dropWhile_cons, hs]
      unfold atoi
      rw [d1, d2]
      by_cases h45 : c = 45
      · subst h45; simp [atoiDigits_append_zero]
      · by_cases h43 : c = 43
        · subst h43; simp [atoiDigits_append_zero]
        · have := atoiDigits_append_zero (c :: cs) r 0
          split <;> split <;> simp_all

theorem firstOccurrence_after (pre rest : List Nat) (h0 : 0 ∉ pre)
    (hfirst : ∀ j < pre.length, ¬ PREFIX <+: (pre ++ PREFIX).drop j) :
    FirstOccurrence PREFIX (cstr (pre ++ PREFIX ++ rest)) pre.length := by
  have hc : cstr (pre ++ PREFIX ++ rest) = pre ++ (PREFIX ++ cstr rest) := by
    rw [List.append_assoc, cstr_append_of_not_mem _ _ h0,
      cstr_append_of_not_mem PREFIX _ (by decide)]
  rw [hc]
  refine ⟨?_, ?_⟩
  · rw [List.drop_left]
    exact List.prefix_append _ _
  · intro j hj hp
    have hle : j ≤ (pre ++ PREFIX).length := by simp; omega
    rw [← List.append_assoc, List.drop_append_of_le_length hle] at hp
    refine hfirst j hj (List.prefix_of_prefix_length_le hp (List.prefix_append _ _) ?_)
    simp [PREFIX]
    omega

theorem strstr_after (pre rest : List Nat) (h0 : 0 ∉ pre)
    (hfirst : ∀ j < pre.length, ¬ PREFIX <+: (pre ++ PREFIX).drop j) :
    strstr (pre ++ PREFIX ++ rest) PREFIX = some pre.length := by
  unfold strstr
  rw [cstr_PREFIX, strstrFrom_eq_some_iff PREFIX (by decide)]
  exact firstOccurrence_after pre rest h0 hfirst

/-- The value of `process_command` on a frame whose first `-prints:` is followed by
the opcode `AA` and 6 to 29 NUL-free field bytes: the three fields are decoded by `atoi`
and the command is published. -/
theorem parseFrame_AA (pre fields : List Nat) (t now : Nat) (h0 : 0 ∉ pre)
    (hfirst : ∀ j < pre.length, ¬ PREFIX <+: (pre ++ PREFIX).drop j)
    (hf0 : 0 ∉ fields) (h6 : 6 ≤ fields.length) (h29 : fields.length ≤ 29) :
    parseFrame (pre ++ PREFIX ++ OPCODE_AA ++ fields ++ [t]) now
      = some { timestamp := now
               port := atoi (fields.take 2)
               duty := F32.div (F32.ofInt (atoi ((fields.drop 2).take 2))) (F32.fin 100)
               frequency := atoi ((fields.drop 4).take 4) } := by
  obtain ⟨p1, p0, d1, d0, f3, f2, rest, rfl⟩ :
      ∃ p1 p0 d1 d0 f3 f2 rest, fields = p1 :: p0 :: d1 :: d0 :: f3 :: f2 :: rest := by
    match fields, h6 with
    | p1 :: p0 :: d1 :: d0 :: f3 :: f2 :: rest, _ => exact ⟨p1, p0, d1, d0, f3, f2, rest, rfl⟩
  have hmem : pre ++ PREFIX ++ OPCODE_AA ++ (p1 :: p0 :: d1 :: d0 :: f3 :: f2 :: rest) ++ [t] ++ [0]
      = pre ++ PREFIX ++ (OPCODE_AA ++ (p1 :: p0 :: d1 :: d0 :: f3 :: f2 :: rest) ++ [t] ++ [0]) := by
    simp [List.append_assoc]
  have hs := strstr_after pre (OPCODE_AA ++ (p1 :: p0 :: d1 :: d0 :: f3 :: f2 :: rest) ++ [t] ++ [0])
    h0 hfirst
  have hdrop : (pre ++ PREFIX ++ (OPCODE_AA ++ (p1 :: p0 :: d1 :: d0 :: f3 :: f2 :: rest) ++ [t] ++ [0])).drop
      (pre.length + 8) = OPCODE_AA ++ (p1 :: p0 :: d1 :: d0 :: f3 :: f2 :: rest) ++ [t] ++ [0] := by
    have : (pre ++ PREFIX).length = pre.length + 8 := by simp [PREFIX]
    rw [← this, List.drop_left]
  simp only [List.mem_cons, not_or] at hf0
  obtain ⟨hp1, hp0, hd1, hd0, hf3, hf2, hrest⟩ := hf0
  simp only [List.length_cons] at h29
  have hcs : cstr (OPCODE_AA ++ (p1 :: p0 :: d1 :: d0 :: f3 :: f2 :: rest) ++ [t] ++ [0])
      = 65 :: 65 :: p1 :: p0 :: d1 :: d0 :: f3 :: f2 :: (rest ++ cstr [t, 0]) := by
    have := cstr_append_of_not_mem (65 :: 65 :: p1 :: p0 :: d1 :: d0 :: f3 :: f2 :: rest) [t, 0]
      (by
        simp only [List.mem_cons, not_or]
        exact ⟨by decide, by decide, hp1, hp0, hd1, hd0, hf3, hf2, hrest⟩)
    simpa [OPCODE_AA, List.append_assoc] using this
  have hlen : ((pre ++ PREFIX ++ OPCODE_AA ++ (p1 :: p0 :: d1 :: d0 :: f3 :: f2 :: rest) ++ [t]).length : Int)
      = (pre.length : Int) + 8 + (rest.length + 8 : Nat) + 1 := by
    simp [PREFIX, OPCODE_AA]; ring
  unfold parseFrame process_command
  rw [hmem, hs, hlen]
  have e1 : ((pre.length : Int) + 8 + ((rest.length + 8 : Nat) : Int) + 1 - ((pre.length + 8 : Nat) : Int) - 1)
      = ((rest.length + 8 : Nat) : Int) := by push_cast; ring
  simp only [e1, hdrop, Int.toNat_ofNat]
  have hcbuf : strncpy (List.replicate 32 0)
      (OPCODE_AA ++ (p1 :: p0 :: d1 :: d0 :: f3 :: f2 :: rest) ++ [t] ++ [0]) (rest.length + 8)
      = 65 :: 65 :: p1 :: p0 :: d1 :: d0 :: f3 :: f2 :: (rest ++ List.replicate (24 - rest.length) 0) := by
    unfold strncpy
    rw [hcs]
    have ht : List.take (rest.length + 8)
        (65 :: 65 :: p1 :: p0 :: d1 :: d0 :: f3 :: f2 :: (rest ++ cstr [t, 0]))
        = 65 :: 65 :: p1 :: p0 :: d1 :: d0 :: f3 :: f2 :: rest := by
      simp [List.take_append_eq_append_take]
    have h32 : 32 - (rest.length + 8) = 24 - rest.length := by omega
    simp only [ht, List.drop_replicate, h32, List.length_cons, Nat.sub_self, List.replicate_zero,
      List.append_nil, List.cons_append]
  have c1 : ¬ ((pre.length : Int) + 8 + ((rest.length + 8 : Nat) : Int) + 1 ≤ 0) := by omega
  have c2 : ¬ (((rest.length + 8 : Nat) : Int) ≤ 0 ∨ ((rest.length + 8 : Nat) : Int) ≥ 32) := by omega
  have c3 : strncmp (65 :: 65 :: p1 :: p0 :: d1 :: d0 :: f3 :: f2 ::
      (rest ++ List.replicate (24 - rest.length) 0)) OPCODE_AA 2 = 0
      ∧ ((rest.length + 8 : Nat) : Int) ≥ 8 := by
    refine ⟨by simp [strncmp, OPCODE_AA], by omega⟩
  simp only [hcbuf, c1, c2, c3, if_false, if_true, and_self]
  have hport : atoi (memcpy [0, 0, 0] (List.drop 2 (65 :: 65 :: p1 :: p0 :: d1 :: d0 :: f3 :: f2 ::
      (rest ++ List.replicate (24 - rest.length) 0))) 2)
      = atoi (List.take 2 (p1 :: p0 :: d1 :: d0 :: f3 :: f2 :: rest)) := by
    have := atoi_append_zero [p1, p0] []
    simpa [memcpy] using this
  have hduty : atoi (memcpy [0, 0, 0] (List.drop 4 (65 :: 65 :: p1 :: p0 :: d1 :: d0 :: f3 :: f2 ::
      (rest ++ List.replicate (24 - rest.length) 0))) 2)
      = atoi (List.take 2 (List.drop 2 (p1 :: p0 :: d1 :: d0 :: f3 :: f2 :: rest))) := by
    have := atoi_append_zero [d1, d0] []
    simpa [memcpy] using this
  have hfreq : atoi (memcpy [0, 0, 0, 0, 0] (List.drop 6 (65 :: 65 :: p1 :: p0 :: d1 :: d0 :: f3 ::
      f2 :: (rest ++ List.replicate (24 - rest.length) 0))) 4)
      = atoi (List.take 4 (List.drop 4 (p1 :: p0 :: d1 :: d0 :: f3 :: f2 :: rest))) := by
    match rest with
    | [] =>
      have := atoi_append_zero [f3, f2] [0, 0]
      simpa [memcpy] using this
    | [x] =>
      have := atoi_append_zero [f3, f2, x] [0]
      simpa [memcpy] using this
    | x :: y :: r =>
      have := atoi_append_zero [f3, f2, x, y] []
      simpa [memcpy] using this
  rw [hport, hduty, hfreq]

theorem atoiDigits_digit_cons (a : Nat) (ha : a < 10) (cs : List Nat) (acc : Nat) :
    atoiDigits ((48 + a) :: cs) acc = atoiDigits cs (acc * 10 + a) := by
  have hd : isdigit (48 + a) = true := by simp [isdigit]; omega
  simp [atoiDigits, hd]

theorem atoi_digit_cons (a : Nat) (ha : a < 10) (cs : List Nat) :
    atoi ((48 + a) :: cs) = (atoiDigits cs a : Int) := by
  have h := atoiDigits_digit_cons a ha cs 0
  interval_cases a <;> simp [atoi, isspace, List.dropWhile_cons] <;> simpa using h

theorem atoi_padDigits_two (n : Nat) (hn : n ≤ 99) : atoi (padDigits 2 n) = (n : Int) := by
  have e : padDigits 2 n = [48 + n / 10 % 10, 48 + n % 10] := by simp [padDigits]
  rw [e, atoi_digit_cons _ (Nat.mod_lt _ (by norm_num)),
    atoiDigits_digit_cons _ (Nat.mod_lt _ (by norm_num))]
  simp only [atoiDigits]
  congr 1
  omega

theorem atoi_padDigits_four (n : Nat) (hn : n ≤ 9999) : atoi (padDigits 4 n) = (n : Int) := by
  have e : padDigits 4 n
      = [48 + n / 10 / 10 / 10 % 10, 48 + n / 10 / 10 % 10, 48 + n / 10 % 10, 48 + n % 10] := by
    simp [padDigits]
  rw [e, atoi_digit_cons _ (Nat.mod_lt _ (by norm_num)),
    atoiDigits_digit_cons _ (Nat.mod_lt _ (by norm_num)),
    atoiDigits_digit_cons _ (Nat.mod_lt _ (by norm_num)),
    atoiDigits_digit_cons _ (Nat.mod_lt _ (by norm_num))]
  simp only [atoiDigits]
  congr 1
  omega

theorem length_padDigits (w n : Nat) : (padDigits w n).length = w := by
  induction w generalizing n with
  | zero => rfl
  | succ k ih => simp [padDigits, ih]

theorem zero_not_mem_padDigits (w n : Nat) : 0 ∉ padDigits w n := by
  induction w generalizing n with
  | zero => simp [padDigits]
  | succ k ih => simp [padDigits, ih]; omega

/-- The published duty `atoi(duty_str) / 100.0f`: the small integer converts exactly and
the quotient by `100.0f` is rounded once. -/
theorem div_hundred (n : Int) (hn : |n| < 2 ^ 24) :
    F32.div (F32.ofInt n) (F32.fin 100) = F32.round ((n : ℚ) / 100) := by
  unfold F32.ofInt
  rw [F32.round_intCast n hn]
  simp [F32.div]

/-- The duty of the field `50`: `(float)50 / 100.0f` is exactly one half. -/
theorem div_fifty : F32.div (F32.ofInt 50) (F32.fin 100) = F32.fin (50 / 100) := by
  rw [div_hundred 50 (by norm_num)]
  have h := F32.round_exact 1 (-1) (by norm_num) (by norm_num) (by norm_num [abs_of_pos])
  have e : (((50 : Int) : ℚ)) / 100 = ((1 : Int) : ℚ) * 2 ^ (-1 : Int) := by norm_num
  rw [e, h]
  norm_num

/-- C2 (as amended): for every port `PP` in 0..99, duty percent `DD` in 0..99 and frequency
`FFFF` in 0..9999, `process_command` on the frame `-prints:AA<PP><DD><FFFF>;` publishes one
Command with `port = PP`, `frequency = FFFF` and `duty` the binary32 value nearest to
`DD / 100`, the result of `(float)DD / 100.0f`.  That value is within `2 ^ -25` of
`DD / 100`, and equals it when `DD` is 0, 25, 50 or 75. -/
theorem process_command_roundtrip (pp dd ffff now : Nat)
    (hpp : pp ≤ 99) (hdd : dd ≤ 99) (hff : ffff ≤ 9999) :
    ∃ y : ℚ,
      parseFrame (encodeAA pp dd ffff) now
        = some { timestamp := now, port := (pp : Int), duty := F32.fin y,
                 frequency := (ffff : Int) } ∧
      F32.fin y = F32.round ((dd : ℚ) / 100) ∧
      F32.fin y = F32.div (F32.ofInt (dd : Int)) (F32.fin 100) ∧
      |y - (dd : ℚ) / 100| ≤ 1 / 2 ^ 25 ∧
      (dd = 0 ∨ dd = 25 ∨ dd = 50 ∨ dd = 75 → y = (dd : ℚ) / 100) := by
  have h := parseFrame_AA [] (padDigits 2 pp ++ padDigits 2 dd ++ padDigits 4 ffff) 59 now
    (by simp) (by simp)
    (by simp [zero_not_mem_padDigits]) (by simp [length_padDigits]) (by simp [length_padDigits])
  have e : encodeAA pp dd ffff
      = [] ++ PREFIX ++ OPCODE_AA ++ (padDigits 2 pp ++ padDigits 2 dd ++ padDigits 4 ffff) ++ [59] := by
    simp [encodeAA, List.append_assoc]
  have t1 : (padDigits 2 pp ++ padDigits 2 dd ++ padDigits 4 ffff).take 2 = padDigits 2 pp := by
    rw [List.append_assoc, List.take_left' (length_padDigits 2 pp)]
  have t2 : ((padDigits 2 pp ++ padDigits 2 dd ++ padDigits 4 ffff).drop 2).take 2
      = padDigits 2 dd := by
    rw [List.append_assoc, List.drop_left' (length_padDigits 2 pp),
      List.take_left' (length_padDigits 2 dd)]
  have t3 : ((padDigits 2 pp ++ padDigits 2 dd ++ padDigits 4 ffff).drop 4).take 4
      = padDigits 4 ffff := by
    rw [List.drop_left' (by simp [length_padDigits]),
      List.take_of_length_le (by simp [length_padDigits])]
  have hdiv := div_hundred (dd : Int) (by
    rw [abs_of_nonneg (by omega)]; omega)
  have hx : |((dd : Int) : ℚ) / 100| < 2 ^ (0 : Int) := by
    have h1 : (0 : ℚ) ≤ ((dd : Int) : ℚ) := by exact_mod_cast Int.natCast_nonneg dd
    have h2 : ((dd : Int) : ℚ) ≤ 99 := by exact_mod_cast hdd
    rw [abs_of_nonneg (by positivity), zpow_zero, div_lt_one (by norm_num)]
    linarith
  obtain ⟨y, hy, herr⟩ := F32.round_error _ 0 hx (by norm_num) (by norm_num)
  have hcast : (((dd : Int) : ℚ)) = (dd : ℚ) := by norm_cast
  rw [hcast] at hy herr hdiv
  refine ⟨y, ?_, hy.symm, ?_, ?_, ?_⟩
  · rw [e, h, t1, t2, t3, atoi_padDigits_two pp hpp, atoi_padDigits_two dd hdd,
      atoi_padDigits_four ffff hff, hdiv, hy]
  · rw [hdiv, hy]
  · have : (2 : ℚ) ^ ((0 : Int) - 25) = 1 / 2 ^ 25 := by norm_num
    rw [this] at herr
    exact herr
  · intro hcases
    have hex : ∀ k : Int, k ≤ 3 → 0 ≤ k → (dd : ℚ) / 100 = (k : ℚ) * 2 ^ (-2 : Int) →
        y = (dd : ℚ) / 100 := by
      intro k hk3 hk0 hk
      have hb : |(k : ℚ) * 2 ^ (-2 : Int)| < 2 ^ ((-2 : Int) + 24) := by
        have h1 : (0 : ℚ) ≤ (k : ℚ) := by exact_mod_cast hk0
        have h2 : (k : ℚ) ≤ 3 := by exact_mod_cast hk3
        rw [abs_of_nonneg (by positivity)]
        norm_num
        linarith
      have hr := F32.round_exact k (-2) (by norm_num) (by norm_num) hb
      rw [← hk, hy] at hr
      exact F32.fin.inj hr
    rcases hcases with h0 | h0 | h0 | h0
    · exact hex 0 (by norm_num) (by norm_num) (by rw [h0]; norm_num)
    · exact hex 1 (by norm_num) (by norm_num) (by rw [h0]; norm_num)
    · exact hex 2 (by norm_num) (by norm_num) (by rw [h0]; norm_num)
    · exact hex 3 (by norm_num) (by norm_num) (by rw [h0]; norm_num)

theorem process_command_roundtrip_witness :
    7 ≤ 99 ∧ 99 ≤ 99 ∧ 1234 ≤ 9999 ∧
    encodeAA 7 99 1234 = bytes "-prints:AA07991234;" ∧
    ∃ y : ℚ,
      parseFrame (encodeAA 7 99 1234) 5
        = some { timestamp := 5, port := ((7 : Nat) : Int), duty := F32.fin y,
                 frequency := ((1234 : Nat) : Int) } ∧
      |y - ((99 : Nat) : ℚ) / 100| ≤ 1 / 2 ^ 25 := by
  obtain ⟨y, h1, _, _, h4, _⟩ :=
    process_command_roundtrip 7 99 1234 5 (by decide) (by decide) (by decide)
  exact ⟨by decide, by decide, by decide, by decide, y, h1, h4⟩

/-- The binary32 value nearest to `99 / 100` is `16609444 * 2 ^ -24`. -/
theorem round_ninety_nine : F32.round (99 / 100) = F32.fin (4152361 / 4194304) := by
  have h := F32.round_eval (99 / 100) (-1) 16609444 (by norm_num [abs_of_pos])
    (by norm_num [abs_of_pos]) (by norm_num) (by norm_num) (by norm_num) (by norm_num)
  rw [h]
  norm_num

/-- C2, counterexample: on the frame `-prints:AA01990255;` (PP = 1, DD = 99, FFFF = 255)
the published duty is the `float` `16609444 * 2 ^ -24 = 0x1.fae148p-1`, which is not
`99 / 100`. -/
theorem roundtrip_duty_not_exact :
    encodeAA 1 99 255 = bytes "-prints:AA01990255;" ∧
    parseFrame (bytes "-prints:AA01990255;") 0
      = some { timestamp := 0, port := 1, duty := F32.fin (4152361 / 4194304),
               frequency := 255 } ∧
    (4152361 / 4194304 : ℚ) ≠ 99 / 100 := by
  refine ⟨by decide, ?_, by norm_num⟩
  have h := parseFrame_AA [] [48, 49, 57, 57, 48, 50, 53, 53] 59 0
    (by simp) (by simp) (by decide) (by decide) (by decide)
  have e : bytes "-prints:AA01990255;"
      = [] ++ PREFIX ++ OPCODE_AA ++ [48, 49, 57, 57, 48, 50, 53, 53] ++ [59] := by decide
  have a1 : atoi (List.take 2 [48, 49, 57, 57, 48, 50, 53, 53]) = 1 := by decide
  have a2 : atoi (List.take 2 (List.drop 2 [48, 49, 57, 57, 48, 50, 53, 53])) = 99 := by decide
  have a3 : atoi (List.take 4 (List.drop 4 [48, 49, 57, 57, 48, 50, 53, 53])) = 255 := by decide
  have hd : F32.div (F32.ofInt 99) (F32.fin 100) = F32.fin (4152361 / 4194304) := by
    rw [div_hundred 99 (by norm_num)]
    have : (((99 : Int) : ℚ)) / 100 = 99 / 100 := by norm_num
    rw [this, round_ninety_nine]
  rw [e, h, a1, a2, a3, hd]

/-- C3: `process_command` on the 18-byte frame `-prints:AA0150255;` publishes the Command
with `port = 1`, `duty = 50 / 100` (the `float` 0.5, exactly) and `frequency = 255` (the
frequency field holds the three digits `255`, the terminator is not part of it). -/
theorem process_command_scenario (now : Nat) :
    (bytes "-prints:AA0150255;").length = 18 ∧
    parseFrame (bytes "-prints:AA0150255;") now
      = some { timestamp := now, port := 1, duty := F32.fin (50 / 100), frequency := 255 } := by
  refine ⟨by decide, ?_⟩
  have h := parseFrame_AA [] [48, 49, 53, 48, 50, 53, 53] 59 now
    (by simp) (by simp) (by decide) (by decide) (by decide)
  have e : bytes "-prints:AA0150255;"
      = [] ++ PREFIX ++ OPCODE_AA ++ [48, 49, 53, 48, 50, 53, 53] ++ [59] := by decide
  have a1 : atoi (List.take 2 [48, 49, 53, 48, 50, 53, 53]) = 1 := by decide
  have a2 : atoi (List.take 2 (List.drop 2 [48, 49, 53, 48, 50, 53, 53])) = 50 := by decide
  have a3 : atoi (List.take 4 (List.drop 4 [48, 49, 53, 48, 50, 53, 53])) = 255 := by decide
  rw [e, h, a1, a2, a3, div_fifty]

theorem strncmp_AA_eq_zero_iff (c : List Nat) :
    strncmp c OPCODE_AA 2 = 0 ↔ c.take 2 = [65, 65] := by
  match c with
  | [] => simp [strncmp, OPCODE_AA]
  | [a] =>
    by_cases ha : a = 65
    · subst ha; simp [strncmp, OPCODE_AA]
    · simp [strncmp, OPCODE_AA, ha]; omega
  | a :: b :: r =>
    by_cases ha : a = 65
    · subst ha
      by_cases hb : b = 65
      · subst hb; simp [strncmp, OPCODE_AA]
      · simp [strncmp, OPCODE_AA, hb]; omega
    · simp [strncmp, OPCODE_AA, ha]; omega

theorem take_two_pad (x z : List Nat) (n : Nat) (hn : 2 ≤ n) (hz : ∀ b ∈ z, b = 0) :
    (x.take n ++ z).take 2 = [65, 65] ↔ x.take 2 = [65, 65] := by
  obtain ⟨m, rfl⟩ : ∃ m, n = m + 2 := ⟨n - 2, by omega⟩
  match x with
  | [] =>
    simp only [List.take_nil, List.nil_append]
    constructor
    · intro h
      have : (65 : Nat) ∈ z := List.mem_of_mem_take (by rw [h]; simp)
      exact absurd (hz 65 this) (by decide)
    · intro h; cases h
  | [a] =>
    constructor
    · intro h
      have h2 : z.take 1 = [65] := by simpa using (List.cons.inj (by simpa using h)).2
      have : (65 : Nat) ∈ z := List.mem_of_mem_take (by rw [h2]; simp)
      exact absurd (hz 65 this) (by decide)
    · intro h; simp at h
  | a :: b :: r => simp

/-- Acceptance by `process_command`, read off its control flow. -/
theorem isSome_parseFrame_iff (f : List Nat) (now : Nat) :
    (parseFrame f now).isSome = true ↔
      ∃ i, strstr (f ++ [0]) PREFIX = some i ∧
        8 ≤ (f.length : Int) - ((i + 8 : Nat) : Int) - 1 ∧
        (f.length : Int) - ((i + 8 : Nat) : Int) - 1 ≤ 31 ∧
        strncmp (strncpy (List.replicate 32 0) ((f ++ [0]).drop (i + 8))
          ((f.length : Int) - ((i + 8 : Nat) : Int) - 1).toNat) OPCODE_AA 2 = 0 := by
  unfold parseFrame process_command
  by_cases hlen : (f.length : Int) ≤ 0
  · simp only [hlen, if_true, Option.isSome_none, Bool.false_eq_true, false_iff]
    rintro ⟨i, _, h8, _⟩
    omega
  · simp only [hlen, if_false]
    cases hs : strstr (f ++ [0]) PREFIX with
    | none => simp
    | some i =>
      simp only [Option.some.injEq, exists_eq_left']
      by_cases hc : (f.length : Int) - ((i + 8 : Nat) : Int) - 1 ≤ 0
          ∨ (f.length : Int) - ((i + 8 : Nat) : Int) - 1 ≥ 32
      · simp only [hc, if_true, Option.isSome_none, Bool.false_eq_true, false_iff]
        rintro ⟨h8, h31, _⟩
        omega
      · simp only [hc, if_false]
        by_cases hok : strncmp (strncpy (List.replicate 32 0) ((f ++ [0]).drop (i + 8))
            ((f.length : Int) - ((i + 8 : Nat) : Int) - 1).toNat) OPCODE_AA 2 = 0
            ∧ (f.length : Int) - ((i + 8 : Nat) : Int) - 1 ≥ 8
        · rw [if_pos hok]
          simp only [Option.isSome_some, true_iff]
          exact ⟨hok.2, by omega, hok.1⟩
        · rw [if_neg hok]
          simp only [Option.isSome_none, Bool.false_eq_true, false_iff]
          rintro ⟨h8, _, h0⟩
          exact hok ⟨h0, h8⟩

theorem FirstOccurrence.le_length {hay : List Nat} {i : Nat}
    (h : FirstOccurrence PREFIX hay i) : i + 8 ≤ hay.length := by
  have := h.1.length_le
  simp [PREFIX] at this
  omega

theorem strstr_frame_iff (f : List Nat) (i : Nat) :
    strstr (f ++ [0]) PREFIX = some i ↔ FirstOccurrence PREFIX (cstr f) i := by
  unfold strstr
  rw [cstr_PREFIX, cstr_append_zero, strstrFrom_eq_some_iff PREFIX (by decide)]

theorem opcode_check_iff (f : List Nat) (i n : Nat)
    (hfo : FirstOccurrence PREFIX (cstr f) i) (hn : 2 ≤ n) :
    strncmp (strncpy (List.replicate 32 0) ((f ++ [0]).drop (i + 8)) n) OPCODE_AA 2 = 0
      ↔ ((cstr f).drop (i + 8)).take 2 = OPCODE_AA := by
  have hle : i + 8 ≤ (cstr (f ++ [0])).length := by
    rw [cstr_append_zero]; exact hfo.le_length
  rw [strncmp_AA_eq_zero_iff]
  unfold strncpy
  simp only []
  rw [cstr_drop _ _ hle, cstr_append_zero, List.append_assoc]
  exact take_two_pad _ _ n hn (by
    intro b hb
    rcases List.mem_append.mp hb with h | h
    · exact (List.mem_replicate.mp h).2
    · exact (List.mem_replicate.mp (List.mem_of_mem_drop h)).2)

/-- C7 (as amended): `process_command` publishes a Command exactly when the frame, read as
a C string, contains `-prints:` and, for its first occurrence at offset `i`, the payload
between the prefix and the last byte of the frame has `n` characters with `8 ≤ n ≤ 31`
and starts with the opcode `AA`.  In every other case (no prefix, other opcode, payload
shorter than 8 or longer than 31) nothing is published. -/
theorem process_command_accepts_iff (f : List Nat) (now : Nat) :
    (parseFrame f now).isSome = true ↔
      ∃ i n, FirstOccurrence PREFIX (cstr f) i ∧ f.length = i + 8 + n + 1 ∧
        8 ≤ n ∧ n ≤ 31 ∧ ((cstr f).drop (i + 8)).take 2 = OPCODE_AA := by
  rw [isSome_parseFrame_iff]
  constructor
  · rintro ⟨i, hs, h8, h31, h0⟩
    have hfo := (strstr_frame_iff f i).mp hs
    refine ⟨i, ((f.length : Int) - ((i + 8 : Nat) : Int) - 1).toNat, hfo, by omega, by omega,
      by omega, ?_⟩
    exact (opcode_check_iff f i _ hfo (by omega)).mp h0
  · rintro ⟨i, n, hfo, hlen, h8, h31, h0⟩
    have e : (f.length : Int) - ((i + 8 : Nat) : Int) - 1 = (n : Int) := by
      rw [hlen]; push_cast; ring
    refine ⟨i, (strstr_frame_iff f i).mpr hfo, by omega, by omega, ?_⟩
    rw [e, Int.toNat_ofNat]
    exact (opcode_check_iff f i n hfo (by omega)).mpr h0

/-- C7, counterexample: the frame `-prints:` + `AA` + 30 digits + `;` contains the prefix
and its payload has 32 characters (at least 8) and starts with `AA`, yet nothing is
published: the guard `cmd_len >= 32` returns first.  Likewise a frame with a NUL byte
before a well-formed `-prints:AA01500255;` publishes nothing, since `strstr` stops at the
NUL. -/
theorem process_command_rejects_long_payload :
    (bytes "-prints:AA012345678901234567890123456789;"
        = PREFIX ++ bytes "AA012345678901234567890123456789" ++ [59] ∧
      8 ≤ (bytes "AA012345678901234567890123456789").length ∧
      (bytes "AA012345678901234567890123456789").take 2 = OPCODE_AA ∧
      parseFrame (bytes "-prints:AA012345678901234567890123456789;") 0 = none) ∧
    (8 ≤ (bytes "AA01500255").length ∧ (bytes "AA01500255").take 2 = OPCODE_AA ∧
      parseFrame ([0] ++ PREFIX ++ bytes "AA01500255" ++ [59]) 0 = none) := by
  refine ⟨⟨by decide, by decide, by decide, by decide⟩, by decide, by decide, by decide⟩

theorem atoiDigits_of_noDigit (l : List Nat) (h : NoDigit l) (acc : Nat) :
    atoiDigits l acc = acc := by
  cases l with
  | nil => rfl
  | cons c cs =>
    have hc : isdigit c = false := h c (List.mem_cons_self _ _)
    simp [atoiDigits, hc]

theorem atoi_of_noDigit (field : List Nat) (h : NoDigit field) : atoi field = 0 := by
  have hr : NoDigit (field.dropWhile isspace) :=
    fun c hc => h c ((List.dropWhile_suffix isspace).subset hc)
  unfold atoi
  split
  · next r heq =>
    have : NoDigit r := fun c hc => hr c (by rw [heq]; exact List.mem_cons_of_mem _ hc)
    simp [atoiDigits_of_noDigit r this]
  · next r heq =>
    have : NoDigit r := fun c hc => hr c (by rw [heq]; exact List.mem_cons_of_mem _ hc)
    simp [atoiDigits_of_noDigit r this]
  · simp [atoiDigits_of_noDigit _ hr]

theorem atoi_of_startsNonNumeric (field : List Nat) (h : StartsNonNumeric field) :
    atoi field = 0 := by
  cases field with
  | nil => simp [atoi, atoiDigits]
  | cons c cs =>
    obtain ⟨hd, hs, h43, h45⟩ := h c (by simp)
    have hdw : (c :: cs).dropWhile isspace = c :: cs := by simp [List.dropWhile_cons, hs]
    unfold atoi
    rw [hdw]
    split
    · next r heq => exact absurd (List.cons.inj heq).1 h45
    · next r heq => exact absurd (List.cons.inj heq).1 h43
    · simp [atoiDigits, hd]

/-- C8 (as amended): on a frame whose first `-prints:` is followed by the opcode `AA`
and a payload of accepted length (6 to 29 NUL-free bytes after the opcode), the content
of the port, duty and frequency fields never causes a rejection: a Command is published,
and each field is decoded by `atoi` (the duty being `(float)atoi(field) / 100.0f`).  A
field without any digit, or whose first character is neither a digit, white space nor a
sign, decodes to 0. -/
theorem permissive_field_decoding (pre fields : List Nat) (t now : Nat) (h0 : 0 ∉ pre)
    (hfirst : ∀ j < pre.length, ¬ PREFIX <+: (pre ++ PREFIX).drop j)
    (hf0 : 0 ∉ fields) (h6 : 6 ≤ fields.length) (h29 : fields.length ≤ 29) :
    ∃ m, parseFrame (pre ++ PREFIX ++ OPCODE_AA ++ fields ++ [t]) now = some m ∧
      m.port = atoi (portField fields) ∧
      m.duty = F32.div (F32.ofInt (atoi (dutyField fields))) (F32.fin 100) ∧
      m.frequency = atoi (freqField fields) ∧
      (NoDigit (portField fields) ∨ StartsNonNumeric (portField fields) → m.port = 0) ∧
      (NoDigit (dutyField fields) ∨ StartsNonNumeric (dutyField fields) → m.duty = F32.fin 0) ∧
      (NoDigit (freqField fields) ∨ StartsNonNumeric (freqField fields) → m.frequency = 0) := by
  have hz : ∀ field, NoDigit field ∨ StartsNonNumeric field → atoi field = 0 := by
    rintro field (h | h)
    · exact atoi_of_noDigit field h
    · exact atoi_of_startsNonNumeric field h
  refine ⟨_, parseFrame_AA pre fields t now h0 hfirst hf0 h6 h29, rfl, rfl, rfl, ?_, ?_, ?_⟩
  · intro h; exact hz _ h
  · intro h
    show F32.div (F32.ofInt (atoi (dutyField fields))) (F32.fin 100) = F32.fin 0
    rw [hz _ h, div_hundred 0 (by norm_num)]
    simp [F32.round]
  · intro h; exact hz _ h

theorem permissive_field_decoding_witness :
    (0 ∉ ([] : List Nat)) ∧
    (∀ j < ([] : List Nat).length, ¬ PREFIX <+: (([] : List Nat) ++ PREFIX).drop j) ∧
    (0 ∉ bytes "xx5y02z5") ∧ 6 ≤ (bytes "xx5y02z5").length ∧ (bytes "xx5y02z5").length ≤ 29 ∧
    ∃ m, parseFrame ([] ++ PREFIX ++ OPCODE_AA ++ bytes "xx5y02z5" ++ [59]) 3 = some m ∧
      m.port = atoi (portField (bytes "xx5y02z5")) ∧
      m.duty = F32.div (F32.ofInt (atoi (dutyField (bytes "xx5y02z5")))) (F32.fin 100) ∧
      m.frequency = atoi (freqField (bytes "xx5y02z5")) ∧
      (NoDigit (portField (bytes "xx5y02z5")) ∨ StartsNonNumeric (portField (bytes "xx5y02z5"))
        → m.port = 0) ∧
      (NoDigit (dutyField (bytes "xx5y02z5")) ∨ StartsNonNumeric (dutyField (bytes "xx5y02z5"))
        → m.duty = F32.fin 0) ∧
      (NoDigit (freqField (bytes "xx5y02z5")) ∨ StartsNonNumeric (freqField (bytes "xx5y02z5"))
        → m.frequency = 0) :=
  ⟨by simp, by simp, by decide, by decide, by decide,
    permissive_field_decoding [] (bytes "xx5y02z5") 59 3 (by simp) (by simp) (by decide)
      (by decide) (by decide)⟩

/-- C8, counterexample: in the frame `-prints:AA1x500255;` the port field `1x` contains
the non-digit `x`, the Command is published, and the port decodes to 1, not 0. -/
theorem non_digit_field_not_zero :
    bytes "-prints:AA1x500255;" = PREFIX ++ OPCODE_AA ++ bytes "1x500255" ++ [59] ∧
    portField (bytes "1x500255") = bytes "1x" ∧
    (∃ c ∈ portField (bytes "1x500255"), isdigit c = false) ∧
    (parseFrame (bytes "-prints:AA1x500255;") 0).map (fun m => m.port) = some 1 := by
  refine ⟨by decide, by decide, ⟨120, by decide, by decide⟩, ?_⟩
  have h := parseFrame_AA [] (bytes "1x500255") 59 0 (by simp) (by simp) (by decide) (by decide)
    (by decide)
  have e : bytes "-prints:AA1x500255;" = [] ++ PREFIX ++ OPCODE_AA ++ bytes "1x500255" ++ [59] := by
    decide
  rw [e, h]
  decide

end SerialEcho

namespace PWMHW_OUT

/-! ## Driver lemmas -/

theorem clampedValue_mem (d : F32) : 0 ≤ clampedValue d ∧ clampedValue d ≤ 1 := by
  cases d with
  | nan => simp [clampedValue]
  | inf neg => cases neg <;> simp [clampedValue]
  | fin v =>
    simp only [clampedValue]
    exact ⟨le_max_left _ _, max_le (by norm_num) (min_le_right _ _)⟩

theorem clampDuty_nan : clampDuty F32.nan = F32.nan := by
  simp [clampDuty, F32.lt]

theorem clampDuty_of_ne_nan (d : F32) (h : d ≠ F32.nan) :
    clampDuty d = F32.fin (clampedValue d) := by
  cases d with
  | nan => exact absurd rfl h
  | inf neg => cases neg <;> simp [clampDuty, F32.lt, clampedValue]
  | fin v =>
    by_cases h0 : v < 0
    · have h1 : ¬ (1 : ℚ) < 0 := by norm_num
      have e : max 0 (min v 1) = 0 := by
        rw [min_eq_left (by linarith), max_eq_left (le_of_lt h0)]
      simp [clampDuty, F32.lt, clampedValue, h0, e]
    · by_cases h1 : 1 < v
      · have e : max 0 (min v 1) = 1 := by
          rw [min_eq_right (le_of_lt h1), max_eq_right (by norm_num)]
        simp [clampDuty, F32.lt, clampedValue, h0, h1, e]
      · have e : max 0 (min v 1) = v := by
          rw [min_eq_left (not_lt.mp h1), max_eq_right (not_lt.mp h0)]
        simp [clampDuty, F32.lt, clampedValue, h0, h1, e]

theorem toUInt16_fin (v : ℚ) (h0 : 0 ≤ v) (h1 : v < 2 ^ 16) :
    (F32.toUInt16 (F32.fin v) : Int) = ⌊v⌋ := by
  have hf0 : 0 ≤ ⌊v⌋ := Int.floor_nonneg.mpr h0
  have hf1 : ⌊v⌋ < 2 ^ 16 := Int.floor_lt.mpr (by exact_mod_cast h1)
  show ((((if 0 ≤ v then ⌊v⌋ else ⌈v⌉) % 2 ^ 16).toNat : Nat) : Int) = ⌊v⌋
  rw [if_pos h0, Int.emod_eq_of_lt hf0 hf1, Int.toNat_of_nonneg hf0]

/-- The `float` expression on a duty clamped to `c` in `[0, 1]`: a finite value within
`5 / 32768` of `1000 + 1000 * c + 1 / 2` (three roundings, of `2 ^ -15`, `2 ^ -14` and
`2 ^ -14` at most). -/
theorem pulseExpr_of_clamped (d : F32) (c : ℚ) (hc : clampDuty d = F32.fin c)
    (h0 : 0 ≤ c) (h1 : c ≤ 1) :
    ∃ v, pulseExpr d = F32.fin v ∧ |v - (1000 + 1000 * c + 1 / 2)| ≤ 5 / 32768 := by
  have p10 : (2 : ℚ) ^ (10 : Int) = 1024 := by norm_num
  have p11 : (2 : ℚ) ^ (11 : Int) = 2048 := by norm_num
  have q15 : (2 : ℚ) ^ ((10 : Int) - 25) = 1 / 32768 := by norm_num
  have q14 : (2 : ℚ) ^ ((11 : Int) - 25) = 1 / 16384 := by norm_num
  obtain ⟨t, ht, et⟩ := F32.round_error (c * 1000) 10
    (by rw [p10, abs_of_nonneg (by positivity)]; linarith) (by norm_num) (by norm_num)
  rw [q15, abs_le] at et
  obtain ⟨u, hu, eu⟩ := F32.round_error (1000 + t) 11
    (by rw [p11, abs_lt]; constructor <;> linarith [et.1, et.2]) (by norm_num) (by norm_num)
  rw [q14, abs_le] at eu
  obtain ⟨v, hv, ev⟩ := F32.round_error (u + 1 / 2) 11
    (by rw [p11, abs_lt]; constructor <;> linarith [et.1, et.2, eu.1, eu.2]) (by norm_num)
    (by norm_num)
  rw [q14, abs_le] at ev
  have h1000 : F32.ofInt 1000 = F32.fin 1000 := by
    have := F32.round_intCast 1000 (by norm_num)
    simpa [F32.ofInt] using this
  refine ⟨v, ?_, ?_⟩
  · unfold pulseExpr
    rw [hc, h1000]
    simp only [F32.mul, F32.add, ht, hu, hv]
  · rw [abs_le]
    constructor <;> linarith [et.1, et.2, eu.1, eu.2, ev.1, ev.2]

theorem mapPulse_of_pulseExpr (d : F32) (v y : ℚ) (hv : pulseExpr d = F32.fin v)
    (hy0 : 1000 ≤ y) (hy1 : y ≤ 2000) (he : |v - (y + 1 / 2)| ≤ 5 / 32768) :
    (mapPulse d : Int) = ⌊v⌋ ∧ 1000 ≤ mapPulse d ∧ mapPulse d ≤ 2000 := by
  rw [abs_le] at he
  have hv0 : (0 : ℚ) ≤ v := by linarith [he.1]
  have hv1 : v < 2 ^ 16 := by norm_num; linarith [he.2]
  have hm : (mapPulse d : Int) = ⌊v⌋ := by
    unfold mapPulse
    rw [hv]
    exact toUInt16_fin v hv0 hv1
  have hlo : (1000 : Int) ≤ ⌊v⌋ := Int.le_floor.mpr (by push_cast; linarith [he.1])
  have hhi : ⌊v⌋ < 2001 := Int.floor_lt.mpr (by push_cast; linarith [he.2])
  refine ⟨hm, ?_, ?_⟩ <;> omega

theorem mapPulse_bounds (duty : F32) (h : duty ≠ F32.nan) :
    1000 ≤ mapPulse duty ∧ mapPulse duty ≤ 2000 := by
  obtain ⟨h0, h1⟩ := clampedValue_mem duty
  obtain ⟨v, hv, he⟩ := pulseExpr_of_clamped duty _ (clampDuty_of_ne_nan duty h) h0 h1
  exact (mapPulse_of_pulseExpr duty v (1000 + 1000 * clampedValue duty) hv (by linarith)
    (by linarith) he).2

theorem pulseWidth_eq_mapPulse (duty : F32) (h : duty ≠ F32.nan) :
    pulseWidth duty = mapPulse duty := by
  obtain ⟨h1, h2⟩ := mapPulse_bounds duty h
  unfold pulseWidth safetyClamp
  have a : ¬ mapPulse duty < 500 := by omega
  have b : ¬ mapPulse duty > 2500 := by omega
  simp only [a, b, if_false]

theorem pulseWidth_range (duty : F32) : 500 ≤ pulseWidth duty ∧ pulseWidth duty ≤ 2500 := by
  unfold pulseWidth safetyClamp
  by_cases a : mapPulse duty < 500
  · simp [a]
  · by_cases b : mapPulse duty > 2500
    · simp [a, b]
    · simp only [a, b, if_false]
      omega

theorem ALL_MASK_eq : ALL_MASK = 0xFF := by decide

theorem loop_uninitialized (polls : List (Option pwm_control_s)) :
    loop { _initialized := false } polls = ({ _initialized := false }, []) := by
  induction polls with
  | nil => rfl
  | cons u us ih =>
    have hs : step { _initialized := false } u = ({ _initialized := false }, []) := by
      cases u with
      | none => rfl
      | some msg => unfold step; split <;> simp
    simp [loop, hs, ih]

theorem loop_initialized (polls : List (Option pwm_control_s)) :
    loop { _initialized := true } polls
      = ({ _initialized := true }, setUpdatePairs (writes polls)) := by
  induction polls with
  | nil => rfl
  | cons u us ih =>
    cases u with
    | none => simp [loop, step, ih, writes]
    | some msg =>
      by_cases hv : msg.port < 1 ∨ msg.port > (MAX_PORTS : Int)
      · have hv2 : ¬ (1 ≤ msg.port ∧ msg.port ≤ 8) := by
          simp only [MAX_PORTS] at hv
          omega
        simp [loop, step, hv, ih, writes, hv2]
      · have hv2 : 1 ≤ msg.port ∧ msg.port ≤ 8 := by
          simp only [MAX_PORTS] at hv
          omega
        simp [loop, step, hv, ih, writes, hv2, setUpdatePairs]

/-- C4, at the failing input: for the duty NaN both comparisons of the duty clamp are
false, the duty stays NaN, the `float` expression is NaN and its conversion to `uint16_t`
(undefined in C, 0 on the target) is not in `[1000, 2000]`; the safety clamp then writes
500.  For every other duty (finite or infinite, `-1.0` and `5.0` included) the pulse
width before the safety clamp lies in `[1000, 2000]` and the safety clamp leaves it
unchanged; after the safety clamp the pulse width lies in `[500, 2500]` for every duty,
NaN included. -/
theorem nan_duty_escapes_clamp :
    clampDuty F32.nan = F32.nan ∧ pulseExpr F32.nan = F32.nan ∧
    mapPulse F32.nan = 0 ∧ pulseWidth F32.nan = 500 ∧
    step { _initialized := true }
        (some { timestamp := 0, port := 3, duty := F32.nan, frequency := 50 })
      = ({ _initialized := true },
          [HwCall.up_pwm_servo_set 2 500, HwCall.up_pwm_update 255]) ∧
    (∀ duty : F32, duty ≠ F32.nan →
      1000 ≤ mapPulse duty ∧ mapPulse duty ≤ 2000 ∧ pulseWidth duty = mapPulse duty) ∧
    (1000 ≤ mapPulse (F32.fin (-1)) ∧ mapPulse (F32.fin (-1)) ≤ 2000 ∧
      1000 ≤ mapPulse (F32.fin 5) ∧ mapPulse (F32.fin 5) ≤ 2000) ∧
    (∀ duty : F32, 500 ≤ pulseWidth duty ∧ pulseWidth duty ≤ 2500) := by
  have hadd : ∀ x : F32, F32.add x F32.nan = F32.nan := by
    intro x; cases x <;> rfl
  have hexpr : pulseExpr F32.nan = F32.nan := by
    unfold pulseExpr
    rw [clampDuty_nan]
    show F32.add (F32.add (F32.ofInt 1000) F32.nan) (F32.fin (1 / 2)) = F32.nan
    rw [hadd]
    rfl
  have hmap : mapPulse F32.nan = 0 := by
    unfold mapPulse
    rw [hexpr]
    rfl
  have hpw : pulseWidth F32.nan = 500 := by
    unfold pulseWidth
    rw [hmap]
    decide
  have hne : ∀ v : ℚ, F32.fin v ≠ F32.nan := fun v h => by cases h
  refine ⟨clampDuty_nan, hexpr, hmap, hpw, ?_, ?_, ?_, pulseWidth_range⟩
  · have hv : ¬ ((3 : Int) < 1 ∨ (3 : Int) > (MAX_PORTS : Int)) := by
      simp only [MAX_PORTS]; omega
    have hc : channelOf 3 = 2 := by decide
    simp only [step, hv, if_false, if_true, hpw, hc]
    rfl
  · intro duty h
    exact ⟨(mapPulse_bounds duty h).1, (mapPulse_bounds duty h).2, pulseWidth_eq_mapPulse duty h⟩
  · exact ⟨(mapPulse_bounds _ (hne _)).1, (mapPulse_bounds _ (hne _)).2,
      (mapPulse_bounds _ (hne _)).1, (mapPulse_bounds _ (hne _)).2⟩

/-- C5: a Command whose port is below 1 or above `MAX_PORTS = 8` makes the driver step
perform no hardware call and leaves the driver state unchanged, and the loop goes on
with the remaining polls as if the Command had not been there. -/
theorem invalid_port_no_hardware (s : Driver) (msg : pwm_control_s)
    (rest : List (Option pwm_control_s)) (hport : msg.port < 1 ∨ msg.port > 8) :
    MAX_PORTS = 8 ∧ step s (some msg) = (s, []) ∧ loop s (some msg :: rest) = loop s rest := by
  have hs : step s (some msg) = (s, []) := by
    have hv : msg.port < 1 ∨ msg.port > (MAX_PORTS : Int) := by simpa [MAX_PORTS] using hport
    simp [step, hv]
  exact ⟨rfl, hs, by simp [loop, hs]⟩

theorem invalid_port_no_hardware_witness :
    ((9 : Int) < 1 ∨ (9 : Int) > 8) ∧
    step { _initialized := true } (some { timestamp := 0, port := 9, duty := F32.fin (1 / 2), frequency := 50 })
      = ({ _initialized := true }, []) :=
  ⟨by decide,
    (invalid_port_no_hardware { _initialized := true }
      { timestamp := 0, port := 9, duty := F32.fin (1 / 2), frequency := 50 } [] (by decide)).2.1⟩

/-- C6: when `up_pwm_servo_init` returns a negative value, whatever Commands are observed
afterwards, the hardware trace of the whole run, `stop()` included, is the failed init
alone: no set, update, arm, disarm or deinit call; the driver stays uninitialized. -/
theorem dry_mode_trace (ret : Int) (polls : List (Option pwm_control_s)) (hret : ret < 0) :
    run Driver.new ret polls
      = ({ _initialized := false }, [HwCall.up_pwm_servo_init ALL_MASK]) := by
  have hstart : start Driver.new ret
      = ({ _initialized := false }, [HwCall.up_pwm_servo_init ALL_MASK]) := by
    simp [start, hret, Driver.new]
  have hstop : stop { _initialized := false } = ({ _initialized := false }, []) := by
    simp [stop]
  unfold run
  simp only [hstart, loop_uninitialized, hstop, List.append_nil]

theorem dry_mode_trace_witness :
    ((-1 : Int) < 0) ∧
    run Driver.new (-1)
        [some { timestamp := 0, port := 3, duty := F32.fin (1 / 2), frequency := 50 }, none,
         some { timestamp := 1, port := 9, duty := F32.fin 1, frequency := 50 }]
      = ({ _initialized := false }, [HwCall.up_pwm_servo_init 255]) :=
  ⟨by decide, dry_mode_trace (-1) _ (by decide)⟩

/-- C9: when the driver is initialized, a Command with port in `[1, 8]` makes the step
perform exactly two hardware calls, in this order: `up_pwm_servo_set(port - 1, pulse)`
with the computed pulse width, then `up_pwm_update(ALL_MASK)` with `ALL_MASK = 0xFF`; the
channel `port - 1` is in `0..7` and its bit is set in `ALL_MASK`. -/
theorem hardware_write (s : Driver) (msg : pwm_control_s)
    (hinit : s._initialized = true) (hlo : 1 ≤ msg.port) (hhi : msg.port ≤ 8) :
    step s (some msg)
      = (s, [HwCall.up_pwm_servo_set (msg.port - 1).toNat (pulseWidth msg.duty),
             HwCall.up_pwm_update ALL_MASK]) ∧
    ALL_MASK = 0xFF ∧ (msg.port - 1).toNat ≤ 7 ∧ ((msg.port - 1).toNat : Int) = msg.port - 1 ∧
    ALL_MASK.testBit (msg.port - 1).toNat = true := by
  have hv : ¬ (msg.port < 1 ∨ msg.port > (MAX_PORTS : Int)) := by
    simp only [MAX_PORTS]; omega
  have hc : channelOf msg.port = (msg.port - 1).toNat := by
    unfold channelOf
    rw [Int.emod_eq_of_lt (by omega) (by omega)]
  have h7 : (msg.port - 1).toNat ≤ 7 := by omega
  refine ⟨by simp [step, hv, hinit, hc], ALL_MASK_eq, h7, by omega, ?_⟩
  rw [ALL_MASK_eq]
  generalize (msg.port - 1).toNat = c at h7
  interval_cases c <;> decide

theorem hardware_write_witness :
    step { _initialized := true } (some { timestamp := 0, port := 3, duty := F32.fin (1 / 2), frequency := 50 })
      = ({ _initialized := true },
          [HwCall.up_pwm_servo_set ((3 : Int) - 1).toNat (pulseWidth (F32.fin (1 / 2))),
           HwCall.up_pwm_update ALL_MASK]) :=
  (hardware_write { _initialized := true }
    { timestamp := 0, port := 3, duty := F32.fin (1 / 2), frequency := 50 } rfl (by decide) (by decide)).1

/-- C10: when `up_pwm_servo_init` succeeds, for every sequence of polls the hardware trace
of the run is `init(ALL_MASK)`, `arm(true, ALL_MASK)`, then one set/update pair per
Command with a valid port, then `arm(false, ALL_MASK)`, then `deinit(ALL_MASK)`; after
the run the driver is not initialized and a further `stop()` makes no hardware call. -/
theorem arm_disarm_lifecycle (ret : Int) (polls : List (Option pwm_control_s)) (hret : 0 ≤ ret) :
    (run Driver.new ret polls).2
      = [HwCall.up_pwm_servo_init ALL_MASK, HwCall.up_pwm_servo_arm true ALL_MASK]
        ++ setUpdatePairs (writes polls)
        ++ [HwCall.up_pwm_servo_arm false ALL_MASK, HwCall.up_pwm_servo_deinit ALL_MASK] ∧
    (run Driver.new ret polls).1._initialized = false ∧
    stop (run Driver.new ret polls).1 = ((run Driver.new ret polls).1, []) := by
  have hr : ¬ ret < 0 := by omega
  simp [run, start, hr, loop_initialized, stop]

theorem arm_disarm_lifecycle_witness :
    ((0 : Int) ≤ 255) ∧
    (run Driver.new 255
        [some { timestamp := 0, port := 3, duty := F32.fin 1, frequency := 50 }, none,
         some { timestamp := 1, port := 9, duty := F32.fin 1, frequency := 50 }]).1._initialized = false :=
  ⟨by decide, (arm_disarm_lifecycle 255 _ (by decide)).2.1⟩

end PWMHW_OUT

namespace SerialEcho

/-! ## Accumulator: frame shape, overflow, chunking, bounds -/

theorem feedByte_invariant (s : Accumulator) (b : Nat)
    (hlen : s.cmd_buffer.length = 512) (hk : s.cmd_len ≤ 511) :
    (feedByte s b).1.cmd_buffer.length = 512 ∧ (feedByte s b).1.cmd_len ≤ 511 ∧
    ∀ c ∈ (feedByte s b).2, 1 ≤ c.len ∧ c.len ≤ 511 ∧ c.cmd.length = 512 := by
  unfold feedByte
  by_cases hfull : s.cmd_len < CMD_BUFFER_SIZE - 1 <;> by_cases hb : b = 59 <;>
    simp [hfull, hb, hlen] <;> simp [CMD_BUFFER_SIZE] at hfull <;> omega

theorem feed_invariant (input : List Nat) : ∀ s : Accumulator,
    s.cmd_buffer.length = 512 → s.cmd_len ≤ 511 →
    (feed s input).1.cmd_buffer.length = 512 ∧ (feed s input).1.cmd_len ≤ 511 ∧
    ∀ c ∈ (feed s input).2, 1 ≤ c.len ∧ c.len ≤ 511 ∧ c.cmd.length = 512 := by
  induction input with
  | nil => intro s hlen hk; simp [feed, hlen, hk]
  | cons b bs ih =>
    intro s hlen hk
    obtain ⟨h1, h2, h3⟩ := feedByte_invariant s b hlen hk
    obtain ⟨g1, g2, g3⟩ := ih (feedByte s b).1 h1 h2
    refine ⟨g1, g2, ?_⟩
    intro c hc
    simp only [feed, List.mem_append] at hc
    rcases hc with hc | hc
    · exact h3 c hc
    · exact g3 c hc

theorem feedByte_nul (s : Accumulator) (b : Nat)
    (hlen : s.cmd_buffer.length = 512) (hk : s.cmd_len ≤ 511) :
    ∀ c ∈ (feedByte s b).2, c.cmd[c.len]? = some 0 := by
  unfold feedByte
  by_cases hfull : s.cmd_len < CMD_BUFFER_SIZE - 1 <;> by_cases hb : b = 59 <;>
    simp [hfull, hb, hlen]
  · simp only [CMD_BUFFER_SIZE] at hfull
    rw [List.getElem?_set_self (by simp [hlen]; omega)]
  · rw [List.getElem?_set_self (by simp [hlen]; omega)]

theorem feed_nul (input : List Nat) : ∀ s : Accumulator,
    s.cmd_buffer.length = 512 → s.cmd_len ≤ 511 →
    ∀ c ∈ (feed s input).2, c.cmd[c.len]? = some 0 := by
  induction input with
  | nil => intro s _ _ c hc; simp [feed] at hc
  | cons b bs ih =>
    intro s hlen hk c hc
    obtain ⟨h1, h2, _⟩ := feedByte_invariant s b hlen hk
    simp only [feed, List.mem_append] at hc
    rcases hc with hc | hc
    · exact feedByte_nul s b hlen hk c hc
    · exact ih (feedByte s b).1 h1 h2 c hc

theorem feedByte_emits (s : Accumulator) (b : Nat) (h : (feedByte s b).2 ≠ []) :
    b = 59 ∧ (feedByte s b).1.cmd_len = 0 := by
  unfold feedByte at h ⊢
  by_cases hb : b = 59
  · simp [hb]
  · simp [hb] at h

theorem feed_snoc_terminator (s : Accumulator) (x : List Nat) :
    (feed s (x ++ [59])).1.cmd_len = 0 := by
  rw [feed_append]
  simp [feed, feedByte]

theorem mem_segmentsFrom (input : List Nat) : ∀ cur : List Nat, 59 ∉ cur →
    ∀ seg ∈ segmentsFrom cur input, ∃ body, seg = body ++ [59] ∧ 59 ∉ body := by
  induction input with
  | nil => intro cur _ seg hs; simp [segmentsFrom] at hs
  | cons b bs ih =>
    intro cur hcur seg hs
    by_cases hb : b = 59
    · subst hb
      simp only [segmentsFrom, if_true, List.mem_cons] at hs
      rcases hs with rfl | hs
      · exact ⟨cur, rfl, hcur⟩
      · exact ih [] (by simp) seg hs
    · simp only [segmentsFrom, hb, if_false] at hs
      exact ih (cur ++ [b]) (by simp [hcur, Ne.symm hb]) seg hs

theorem segmentsFrom_single (seg : List Nat) (h : 59 ∉ seg) : ∀ cur : List Nat,
    segmentsFrom cur (seg ++ [59]) = [cur ++ seg ++ [59]] := by
  induction seg with
  | nil => intro cur; simp [segmentsFrom]
  | cons b bs ih =>
    intro cur
    simp only [List.mem_cons, not_or] at h
    have hb : ¬ b = 59 := fun e => h.1 e.symm
    simp [segmentsFrom, hb, ih h.2]

theorem run_frames (buf0 : List Nat) (chunks : List (List Nat))
    (hbuf : buf0.length = CMD_BUFFER_SIZE) :
    (run ⟨buf0, 0⟩ chunks).2.map Call.frame
      = (segments chunks.flatten).map (List.take 511) := by
  rw [run_eq_feed, feed_frames chunks.flatten ⟨buf0, 0⟩ [] hbuf (by simp) (by simp)]
  rfl

theorem frame_shape (seg : List Nat) (h : ∃ body, seg = body ++ [59] ∧ 59 ∉ body) :
    (seg.length ≤ 511 ∧ seg.take 511 = seg) ∨
    (511 < seg.length ∧ (seg.take 511).length = 511 ∧ 59 ∉ seg.take 511) := by
  obtain ⟨body, rfl, hbody⟩ := h
  by_cases hl : (body ++ [59]).length ≤ 511
  · exact Or.inl ⟨hl, List.take_of_length_le hl⟩
  · right
    have hb : 511 ≤ body.length := by simp at hl; omega
    refine ⟨by omega, by simp; omega, ?_⟩
    rw [List.take_append_of_le_length hb]
    exact fun hm => hbody (List.mem_of_mem_take hm)

end SerialEcho

namespace SerialEcho

theorem buffer_facts (buf0 : List Nat) (chunks : List (List Nat))
    (hbuf : buf0.length = CMD_BUFFER_SIZE) :
    ∀ c ∈ (run ⟨buf0, 0⟩ chunks).2,
      1 ≤ c.len ∧ c.len ≤ 511 ∧ c.cmd.length = 512 ∧ c.cmd[c.len]? = some 0 := by
  rw [run_eq_feed]
  obtain ⟨_, _, h3⟩ := feed_invariant chunks.flatten ⟨buf0, 0⟩ hbuf (by simp)
  have h4 := feed_nul chunks.flatten ⟨buf0, 0⟩ hbuf (by simp)
  exact fun c hc => ⟨(h3 c hc).1, (h3 c hc).2.1, (h3 c hc).2.2, h4 c hc⟩

/-- The shape of the frames: the frames handed to `process_command` are, in order, the
terminator-delimited segments of the stream, each cut to the 511 bytes the buffer holds.
A segment of at most 511 bytes gives a frame that ends in `;` and contains no other `;`;
a longer one gives a frame of exactly 511 bytes without any `;`.  A frame is emitted only
on a `;`, and `cmd_len` is 0 immediately after it is emitted. -/
theorem frames_shape (buf0 : List Nat) (chunks : List (List Nat))
    (hbuf : buf0.length = CMD_BUFFER_SIZE) :
    (run ⟨buf0, 0⟩ chunks).2.map Call.frame = (segments chunks.flatten).map (List.take 511) ∧
    (∀ seg ∈ segments chunks.flatten, ∃ body, seg = body ++ [59] ∧ 59 ∉ body) ∧
    (∀ f ∈ (run ⟨buf0, 0⟩ chunks).2.map Call.frame,
      (∃ body, f = body ++ [59] ∧ 59 ∉ body ∧ f.length ≤ 511) ∨ (f.length = 511 ∧ 59 ∉ f)) ∧
    (∀ (s : Accumulator) (b : Nat), (feedByte s b).2 ≠ [] →
      b = 59 ∧ (feedByte s b).1.cmd_len = 0) := by
  refine ⟨run_frames buf0 chunks hbuf, mem_segmentsFrom chunks.flatten [] (by simp), ?_,
    feedByte_emits⟩
  rw [run_frames buf0 chunks hbuf]
  intro f hf
  obtain ⟨seg, hseg, rfl⟩ := List.mem_map.mp hf
  have hshape := mem_segmentsFrom chunks.flatten [] (by simp) seg hseg
  rcases frame_shape seg hshape with ⟨hl, he⟩ | ⟨_, hl, hn⟩
  · obtain ⟨body, hb, hbody⟩ := hshape
    exact Or.inl ⟨body, by rw [he]; exact hb, hbody, by rw [he]; exact hl⟩
  · exact Or.inr ⟨hl, hn⟩

theorem no_earlier_match (pre : List Nat) (h : 45 ∉ pre) :
    ∀ j < pre.length, ¬ PREFIX <+: (pre ++ PREFIX).drop j := by
  intro j hj hp
  rw [List.drop_append_of_le_length (le_of_lt hj)] at hp
  have hne : pre.drop j ≠ [] := by
    intro e
    have := congrArg List.length e
    simp at this
    omega
  obtain ⟨x, xs, hx⟩ := List.exists_cons_of_ne_nil hne
  have hmem : x ∈ pre := List.mem_of_mem_drop (by rw [hx]; exact List.mem_cons_self _ _)
  rw [hx] at hp
  obtain ⟨t, ht⟩ := hp
  have : (45 : Nat) = x := by
    simp only [PREFIX, List.cons_append, List.cons.injEq] at ht
    exact ht.1
  exact h (this ▸ hmem)

theorem eq_singleton_of_map_frame (l : List Call) (f : List Nat)
    (h : l.map Call.frame = [f]) : ∃ c, l = [c] ∧ c.frame = f := by
  match l, h with
  | [], h => simp at h
  | [c], h => exact ⟨c, rfl, by simpa using h⟩
  | _ :: _ :: _, h => simp at h

/-- A call is determined by its frame when the frame fills the buffer: 511 bytes, then the
NUL. -/
theorem call_of_full_frame (c : Call) (f : List Nat) (hf : c.frame = f) (hl : f.length = 511)
    (hlen : c.len ≤ 511) (hcmd : c.cmd.length = 512) (hnul : c.cmd[c.len]? = some 0) :
    c = { cmd := f ++ [0], len := 511 } := by
  obtain ⟨cmd, len⟩ := c
  simp only [Call.frame] at hf
  simp only at hlen hcmd hnul
  have h511 : len = 511 := by
    have := congrArg List.length hf
    rw [List.length_take, hl, hcmd] at this
    omega
  subst h511
  have hd : cmd.drop 511 = [0] := by
    have hdl : (cmd.drop 511).length = 1 := by rw [List.length_drop, hcmd]
    match hx : cmd.drop 511, hdl with
    | [x], _ =>
      have : cmd[511]? = some x := by
        have := List.getElem?_drop (L := cmd) (i := 511) (j := 0)
        rw [hx] at this
        simpa using this.symm
      rw [this] at hnul
      rw [Option.some.inj hnul]
  have : cmd = cmd.take 511 ++ cmd.drop 511 := (List.take_append_drop 511 cmd).symm
  rw [hf, hd] at this
  rw [this]

/-- C11, at the failing input: 493 bytes `a` followed by the well-formed command
`-prints:AA01500255;`, received in two reads of 256 bytes.  The command's last data byte
is the 511th of the segment, so the buffer is full when the `;` arrives and the `;` is not
stored: the one frame handed to `process_command` ends in `5`, not in `;`, and contains no
`;`.  `process_command` then strips the last data byte as if it were the terminator and
publishes frequency 25, whereas the same command in a frame of its own publishes 255. -/
theorem overflow_frame_lacks_terminator :
    (run ⟨List.replicate 512 0, 0⟩
        [List.replicate 256 97, List.replicate 237 97 ++ bytes "-prints:AA01500255;"]).2
      = [{ cmd := List.replicate 493 97 ++ bytes "-prints:AA01500255" ++ [0], len := 511 }] ∧
    Call.frame { cmd := List.replicate 493 97 ++ bytes "-prints:AA01500255" ++ [0], len := 511 }
      = List.replicate 493 97 ++ bytes "-prints:AA01500255" ∧
    (List.replicate 493 97 ++ bytes "-prints:AA01500255").getLast? = some 53 ∧
    59 ∉ List.replicate 493 97 ++ bytes "-prints:AA01500255" ∧
    process_command (List.replicate 493 97 ++ bytes "-prints:AA01500255" ++ [0]) 511 0
      = some { timestamp := 0, port := 1, duty := F32.fin (50 / 100), frequency := 25 } ∧
    parseFrame (bytes "-prints:AA01500255;") 0
      = some { timestamp := 0, port := 1, duty := F32.fin (50 / 100), frequency := 255 } := by
  have hbuf : (List.replicate 512 (0 : Nat)).length = CMD_BUFFER_SIZE := List.length_replicate 512 0
  have hlenF : (List.replicate 493 97 ++ bytes "-prints:AA01500255").length = 511 := by
    rw [List.length_append, List.length_replicate]; decide
  have hno : 59 ∉ List.replicate 493 97 ++ bytes "-prints:AA01500255" := by
    intro h
    rcases List.mem_append.mp h with h | h
    · exact absurd (List.mem_replicate.mp h).2 (by decide)
    · exact absurd h (by decide)
  have hflat : [List.replicate 256 97, List.replicate 237 97 ++ bytes "-prints:AA01500255;"].flatten
      = (List.replicate 493 97 ++ bytes "-prints:AA01500255") ++ [59] := by
    have e : bytes "-prints:AA01500255;" = bytes "-prints:AA01500255" ++ [59] := by decide
    simp only [List.flatten_cons, List.flatten_nil, List.append_nil, e, ← List.append_assoc,
      List.append_replicate_replicate]
  have hframes := run_frames (List.replicate 512 0)
    [List.replicate 256 97, List.replicate 237 97 ++ bytes "-prints:AA01500255;"] hbuf
  rw [hflat, segments, segmentsFrom_single _ hno] at hframes
  simp only [List.nil_append, List.map_cons, List.map_nil] at hframes
  rw [List.take_append_of_le_length (le_of_eq hlenF.symm),
    List.take_of_length_le (le_of_eq hlenF)] at hframes
  have hinv := buffer_facts (List.replicate 512 0)
    [List.replicate 256 97, List.replicate 237 97 ++ bytes "-prints:AA01500255;"] hbuf
  have hcalls : (run ⟨List.replicate 512 0, 0⟩
      [List.replicate 256 97, List.replicate 237 97 ++ bytes "-prints:AA01500255;"]).2
      = [{ cmd := List.replicate 493 97 ++ bytes "-prints:AA01500255" ++ [0], len := 511 }] := by
    obtain ⟨c, hc, hf⟩ := eq_singleton_of_map_frame _ _ hframes
    obtain ⟨_, h2, h3, h4⟩ := hinv c (by rw [hc]; exact List.mem_singleton.mpr rfl)
    rw [hc, call_of_full_frame c _ hf hlenF h2 h3 h4]
  have hfreq255 : parseFrame (bytes "-prints:AA01500255;") 0
      = some { timestamp := 0, port := 1, duty := F32.fin (50 / 100), frequency := 255 } := by
    have h := parseFrame_AA [] [48, 49, 53, 48, 48, 50, 53, 53] 59 0
      (by simp) (by simp) (by decide) (by decide) (by decide)
    have e : bytes "-prints:AA01500255;"
        = [] ++ PREFIX ++ OPCODE_AA ++ [48, 49, 53, 48, 48, 50, 53, 53] ++ [59] := by decide
    have a1 : atoi (List.take 2 [48, 49, 53, 48, 48, 50, 53, 53]) = 1 := by decide
    have a2 : atoi (List.take 2 (List.drop 2 [48, 49, 53, 48, 48, 50, 53, 53])) = 50 := by decide
    have a3 : atoi (List.take 4 (List.drop 4 [48, 49, 53, 48, 48, 50, 53, 53])) = 255 := by
      decide
    rw [e, h, a1, a2, a3, div_fifty]
  have hfreq25 : process_command
      (List.replicate 493 97 ++ bytes "-prints:AA01500255" ++ [0]) 511 0
      = some { timestamp := 0, port := 1, duty := F32.fin (50 / 100), frequency := 25 } := by
    have h := parseFrame_AA (List.replicate 493 97) [48, 49, 53, 48, 48, 50, 53] 53 0
      (fun h => absurd (List.mem_replicate.mp h).2 (by decide))
      (no_earlier_match _ (fun h => absurd (List.mem_replicate.mp h).2 (by decide)))
      (by decide) (by decide) (by decide)
    have e : List.replicate 493 97 ++ bytes "-prints:AA01500255"
        = List.replicate 493 97 ++ PREFIX ++ OPCODE_AA ++ [48, 49, 53, 48, 48, 50, 53] ++ [53] := by
      have : bytes "-prints:AA01500255" = PREFIX ++ OPCODE_AA ++ [48, 49, 53, 48, 48, 50, 53] ++ [53] := by
        decide
      rw [this]
      simp only [List.append_assoc]
    have a1 : atoi (List.take 2 [48, 49, 53, 48, 48, 50, 53]) = 1 := by decide
    have a2 : atoi (List.take 2 (List.drop 2 [48, 49, 53, 48, 48, 50, 53])) = 50 := by decide
    have a3 : atoi (List.take 4 (List.drop 4 [48, 49, 53, 48, 48, 50, 53])) = 25 := by decide
    rw [a1, a2, a3, div_fifty, ← e] at h
    unfold parseFrame at h
    rw [hlenF] at h
    exact h
  refine ⟨hcalls, ?_, ?_, hno, hfreq25, hfreq255⟩
  · show List.take 511 (List.replicate 493 97 ++ bytes "-prints:AA01500255" ++ [0]) = _
    rw [List.take_append_of_le_length (le_of_eq hlenF.symm), List.take_of_length_le (le_of_eq hlenF)]
  · have : bytes "-prints:AA01500255" = bytes "-prints:AA0150025" ++ [53] := by decide
    rw [this, ← List.append_assoc, List.getLast?_concat]

/-- C12: a terminator-delimited segment with more than 511 bytes before its `;`, fed to
the accumulator at a segment start (the start of the stream or right after a `;`),
yields exactly one frame, made of the first 511 bytes of the segment; all later bytes
are dropped, and `cmd_len` is 0 afterwards, so the next segment starts from an empty
buffer. -/
theorem overflow_keeps_oldest (buf0 before seg : List Nat)
    (hbuf : buf0.length = CMD_BUFFER_SIZE)
    (hstart : before = [] ∨ ∃ x, before = x ++ [59])
    (hseg : 59 ∉ seg) (hlong : 511 < seg.length) :
    (feed (feed ⟨buf0, 0⟩ before).1 (seg ++ [59])).2.map Call.frame = [seg.take 511] ∧
    (feed (feed ⟨buf0, 0⟩ before).1 (seg ++ [59])).1.cmd_len = 0 ∧
    (feed ⟨buf0, 0⟩ before).1.cmd_len = 0 ∧
    (∀ next : List Nat,
      (feed (feed (feed ⟨buf0, 0⟩ before).1 (seg ++ [59])).1 next).2.map Call.frame
        = (segments next).map (List.take 511)) := by
  have h0 : (feed ⟨buf0, 0⟩ before).1.cmd_len = 0 := by
    rcases hstart with rfl | ⟨x, rfl⟩
    · rfl
    · exact feed_snoc_terminator _ x
  have hlen := (feed_invariant before ⟨buf0, 0⟩ hbuf (by simp)).1
  have h1 := feed_snoc_terminator (feed ⟨buf0, 0⟩ before).1 seg
  have hlen1 := (feed_invariant (seg ++ [59]) (feed ⟨buf0, 0⟩ before).1 hlen (by omega)).1
  refine ⟨?_, h1, h0, fun next =>
    feed_frames next _ [] hlen1 (by simp [h1]) (by simp [h1])⟩
  rw [feed_frames (seg ++ [59]) (feed ⟨buf0, 0⟩ before).1 [] hlen (by simp [h0]) (by simp [h0]),
    segmentsFrom_single seg hseg]
  simp only [List.nil_append, List.map_cons, List.map_nil]
  rw [List.take_append_of_le_length (by omega)]

theorem overflow_keeps_oldest_witness :
    (List.replicate 512 0).length = CMD_BUFFER_SIZE ∧
    (([1, 59] : List Nat) = [] ∨ ∃ x, ([1, 59] : List Nat) = x ++ [59]) ∧
    59 ∉ List.replicate 600 97 ∧ 511 < (List.replicate 600 97).length ∧
    (feed (feed ⟨List.replicate 512 0, 0⟩ [1, 59]).1 (List.replicate 600 97 ++ [59])).2.map
      Call.frame = [(List.replicate 600 97).take 511] :=
  ⟨List.length_replicate 512 0, Or.inr ⟨[1], rfl⟩,
    fun h => absurd (List.mem_replicate.mp h).2 (by decide),
    by rw [List.length_replicate]; decide,
    (overflow_keeps_oldest (List.replicate 512 0) [1, 59] (List.replicate 600 97)
      (List.length_replicate 512 0) (Or.inr ⟨[1], rfl⟩)
      (fun h => absurd (List.mem_replicate.mp h).2 (by decide))
      (by rw [List.length_replicate]; decide)).1⟩

/-- C13: two ways of splitting the same byte stream into reads give the same calls of
`process_command` (same memory, same lengths, same order) and the same final buffer and
cursor; both agree with feeding the whole stream in one go. -/
theorem chunking_independence (s : Accumulator) (chunks1 chunks2 : List (List Nat))
    (h : chunks1.flatten = chunks2.flatten) :
    run s chunks1 = run s chunks2 ∧ run s chunks1 = run s [chunks1.flatten] ∧
    run s chunks1 = feed s chunks1.flatten := by
  refine ⟨?_, ?_, run_eq_feed s chunks1⟩
  · rw [run_eq_feed, run_eq_feed, h]
  · rw [run_eq_feed, run_eq_feed]
    simp

theorem chunking_independence_witness :
    ([[1, 59], [2]] : List (List Nat)).flatten = ([[1], [], [59, 2]] : List (List Nat)).flatten ∧
    run ⟨List.replicate 512 0, 0⟩ [[1, 59], [2]] = run ⟨List.replicate 512 0, 0⟩ [[1], [], [59, 2]] :=
  ⟨by decide,
    (chunking_independence ⟨List.replicate 512 0, 0⟩ [[1, 59], [2]] [[1], [], [59, 2]]
      (by decide)).1⟩

/-- C20: for every byte stream and every division into reads, after the stream has been
consumed `cmd_len` is at most 511 and the buffer still has 512 bytes, so the writes of
the next byte (`cmd_buffer[cmd_len++] = b` and `cmd_buffer[cmd_len] = 0`) index below
512; every call of `process_command` made so far had `1 ≤ len ≤ 511` and, at index `len`
of its 512-byte memory, the NUL. -/
theorem buffer_bound_invariant (buf0 : List Nat) (chunks : List (List Nat))
    (hbuf : buf0.length = CMD_BUFFER_SIZE) :
    (run ⟨buf0, 0⟩ chunks).1.cmd_len ≤ 511 ∧
    (run ⟨buf0, 0⟩ chunks).1.cmd_buffer.length = 512 ∧
    (∀ b, ∀ i ∈ writeIndices (run ⟨buf0, 0⟩ chunks).1 b, i < 512) ∧
    (∀ c ∈ (run ⟨buf0, 0⟩ chunks).2,
      1 ≤ c.len ∧ c.len ≤ 511 ∧ c.cmd.length = 512 ∧ c.cmd[c.len]? = some 0) := by
  rw [run_eq_feed]
  obtain ⟨h1, h2, h3⟩ := feed_invariant chunks.flatten ⟨buf0, 0⟩ hbuf (by simp)
  have h4 := feed_nul chunks.flatten ⟨buf0, 0⟩ hbuf (by simp)
  refine ⟨h2, h1, ?_, fun c hc => ⟨(h3 c hc).1, (h3 c hc).2.1, (h3 c hc).2.2, h4 c hc⟩⟩
  intro b i hi
  unfold writeIndices at hi
  simp only [CMD_BUFFER_SIZE] at hi
  by_cases hfull : (feed ⟨buf0, 0⟩ chunks.flatten).1.cmd_len < 512 - 1 <;>
    by_cases hb : b = 59 <;> simp [hfull, hb] at hi <;> omega

theorem buffer_bound_invariant_witness :
    (List.replicate 512 0).length = CMD_BUFFER_SIZE ∧
    (run ⟨List.replicate 512 0, 0⟩ [[1, 2], [59, 3]]).1.cmd_len ≤ 511 :=
  ⟨List.length_replicate 512 0,
    (buffer_bound_invariant (List.replicate 512 0) [[1, 2], [59, 3]]
      (List.length_replicate 512 0)).1⟩

end SerialEcho

namespace MavlinkStreamPWM_CONTROL

/-- C14: `get_size()` returns 0 when the `pwm_control` topic is not advertised, and the
fixed message size, the payload length plus the non-payload framing bytes, when it is
advertised (the sum fits an `unsigned`). -/
theorem get_size_gated (len non_payload : Nat) (hfit : len + non_payload < 2 ^ 32) :
    get_size len non_payload false = 0 ∧
    get_size len non_payload true = len + non_payload := by
  refine ⟨rfl, ?_⟩
  unfold get_size
  rw [if_pos rfl, Nat.mod_eq_of_lt hfit]

theorem get_size_gated_witness :
    22 + 12 < 2 ^ 32 ∧ get_size 22 12 false = 0 ∧ get_size 22 12 true = 22 + 12 :=
  ⟨by decide, get_size_gated 22 12 (by decide)⟩

/-- C15: `send()` hands a message to the transport and returns true exactly when the
subscription reports a new Command; the message then carries the Command's `timestamp`
(as `time_usec`), `port`, `duty` and `frequency` unchanged.  Without a new Command it
sends nothing and returns false. -/
theorem send_reencodes (msg : pwm_control_s) (upd : Option pwm_control_s) :
    send (some msg)
      = (true, [{ time_usec := msg.timestamp, port := msg.port, duty := msg.duty,
                  frequency := msg.frequency }]) ∧
    send none = (false, []) ∧
    ((send upd).1 = true ↔ upd.isSome = true) ∧
    ((send upd).2 ≠ [] ↔ upd.isSome = true) ∧
    (send upd).2.length ≤ 1 := by
  refine ⟨rfl, rfl, ?_, ?_, ?_⟩ <;> cases upd <;> simp [send]

end MavlinkStreamPWM_CONTROL

namespace serial_app

theorem reply_of_not_digit (c : Nat) (h : SerialEcho.isdigit c = false) :
    reply c = NONE_CRLF := by
  unfold reply
  simp only [h, Bool.false_eq_true, if_false]
  decide

theorem reply_of_digit (c : Nat) (h : SerialEcho.isdigit c = true) :
    reply c = fmt_d (((c - 48 + 1) % 10 : Nat) : Int) ++ CRLF := by
  have hc : 48 ≤ c ∧ c ≤ 57 := by simpa [SerialEcho.isdigit] using h
  obtain ⟨h1, h2⟩ := hc
  interval_cases c <;> decide

/-- C16 (as amended): for every received byte `c`, if `c` is an ASCII digit the reply is
the decimal text of (digit value + 1) modulo 10, a single digit, followed by `\r\n`: for
`0` to `8` that is digit value + 1, for `9` it is `0`; if `c` is not a digit the reply is
`NONE\r\n`. -/
theorem reply_rule (c : Nat) :
    reply c
      = (if SerialEcho.isdigit c = true then fmt_d (((c - 48 + 1) % 10 : Nat) : Int) ++ CRLF
         else NONE_CRLF) ∧
    (48 ≤ c ∧ c ≤ 56 → reply c = fmt_d (((c - 48 + 1 : Nat) : Int)) ++ CRLF) ∧
    reply 57 = fmt_d 0 ++ CRLF := by
  refine ⟨?_, ?_, by decide⟩
  · by_cases h : SerialEcho.isdigit c = true
    · rw [if_pos h]; exact reply_of_digit c h
    · rw [if_neg h]; exact reply_of_not_digit c (by simpa using h)
  · rintro ⟨h1, h2⟩
    have hd : SerialEcho.isdigit c = true := by simp [SerialEcho.isdigit]; omega
    rw [reply_of_digit c hd, Nat.mod_eq_of_lt (by omega)]

/-- C16, counterexample: the byte `9` is an ASCII digit with digit value 9; the decimal
text of 9 + 1 is `10`, but the reply is `0\r\n`: the code wraps 10 to 0. -/
theorem reply_nine_wraps :
    SerialEcho.isdigit 57 = true ∧
    fmt_d (((57 - 48 + 1 : Nat) : Int)) ++ CRLF = [49, 48, 13, 10] ∧
    reply 57 = [48, 13, 10] ∧
    reply 57 ≠ fmt_d (((57 - 48 + 1 : Nat) : Int)) ++ CRLF := by
  refine ⟨by decide, by decide, by decide, by decide⟩

end serial_app

namespace uORB

end uORB

namespace PWMHW_OUT

/-! ## Rounding and the wire-to-hardware bound -/

theorem pulseWidth_near (duty : F32) (hduty : duty ≠ F32.nan) :
    ∃ v : ℚ, pulseExpr duty = F32.fin v ∧
      |v - (1000 + 1000 * clampedValue duty + 1 / 2)| ≤ 5 / 32768 ∧
      (pulseWidth duty : Int) = ⌊v⌋ ∧
      |(pulseWidth duty : ℚ) - (1000 + 1000 * clampedValue duty)| ≤ 1 / 2 + 5 / 32768 := by
  obtain ⟨h0, h1⟩ := clampedValue_mem duty
  obtain ⟨v, hv, he⟩ := pulseExpr_of_clamped duty _ (clampDuty_of_ne_nan duty hduty) h0 h1
  have hm := (mapPulse_of_pulseExpr duty v (1000 + 1000 * clampedValue duty) hv (by linarith)
    (by linarith) he).1
  rw [← pulseWidth_eq_mapPulse duty hduty] at hm
  have hq : (pulseWidth duty : ℚ) = ((⌊v⌋ : Int) : ℚ) := by
    rw [← hm]; norm_cast
  have hle := Int.floor_le v
  have hlt := Int.lt_floor_add_one v
  refine ⟨v, hv, he, hm, ?_⟩
  rw [abs_le] at he ⊢
  rw [hq]
  constructor <;> linarith [he.1, he.2]

theorem pulseWidth_eq_of_near (duty : F32) (hduty : duty ≠ F32.nan) (n : Nat)
    (hn : (1000 : ℚ) + 1000 * clampedValue duty = n) : pulseWidth duty = n := by
  obtain ⟨_, _, _, _, h⟩ := pulseWidth_near duty hduty
  rw [hn, abs_le] at h
  have h1 : ((n : Int) : ℚ) - 1 < ((pulseWidth duty : Int) : ℚ) := by
    push_cast; linarith [h.1]
  have h2 : ((pulseWidth duty : Int) : ℚ) < ((n : Int) : ℚ) + 1 := by
    push_cast; linarith [h.2]
  have h3 : (n : Int) - 1 < (pulseWidth duty : Int) := by exact_mod_cast h1
  have h4 : (pulseWidth duty : Int) < (n : Int) + 1 := by exact_mod_cast h2
  omega

/-- C18 (as amended): for every duty value other than NaN, with `c` the duty clamped to
`[0, 1]`, the pulse width the driver computes is `⌊v⌋`, where `v` is the binary32 value of
`1000 + c * 1000.0f + 0.5f` (each operation rounded to nearest); `v` is within `5 / 32768`
of `1000 + 1000 * c + 1 / 2`, so the pulse width differs from `1000 + 1000 * c` by at most
`1 / 2 + 5 / 32768`.  Duty 0 gives 1000, duty 1/2 gives 1500 and duty 1 gives 2000. -/
theorem pulse_rounding (duty : F32) (hduty : duty ≠ F32.nan) :
    (∃ v : ℚ, pulseExpr duty = F32.fin v ∧
      |v - (1000 + 1000 * clampedValue duty + 1 / 2)| ≤ 5 / 32768 ∧
      (pulseWidth duty : Int) = ⌊v⌋ ∧
      |(pulseWidth duty : ℚ) - (1000 + 1000 * clampedValue duty)| ≤ 1 / 2 + 5 / 32768) ∧
    pulseWidth (F32.fin 0) = 1000 ∧ pulseWidth (F32.fin (1 / 2)) = 1500 ∧
    pulseWidth (F32.fin 1) = 2000 := by
  have hne : ∀ v : ℚ, F32.fin v ≠ F32.nan := fun v h => by cases h
  refine ⟨pulseWidth_near duty hduty, ?_, ?_, ?_⟩
  · exact pulseWidth_eq_of_near _ (hne _) 1000 (by norm_num [clampedValue])
  · exact pulseWidth_eq_of_near _ (hne _) 1500 (by norm_num [clampedValue])
  · exact pulseWidth_eq_of_near _ (hne _) 2000 (by norm_num [clampedValue])

theorem pulse_rounding_witness :
    F32.fin (1 / 4) ≠ F32.nan ∧
    |(pulseWidth (F32.fin (1 / 4)) : ℚ) - (1000 + 1000 * clampedValue (F32.fin (1 / 4)))|
      ≤ 1 / 2 + 5 / 32768 := by
  have hne : F32.fin (1 / 4) ≠ F32.nan := fun h => by cases h
  obtain ⟨⟨_, _, _, _, h⟩, _⟩ := pulse_rounding (F32.fin (1 / 4)) hne
  exact ⟨hne, h⟩

/-- C18, counterexample: the duty `8589933 * 2 ^ -34 = 0x1.0624dap-11`, a binary32 value
just below 0.0005.  The product rounds to `16777213 * 2 ^ -25`, the sum with 1000 rounds
up to 1000.5 and the pulse width is 1001, whereas `⌊1000 + 1000 * c + 1 / 2⌋ = 1000`; the
pulse width is more than 1/2 away from `1000 + 1000 * c`. -/
theorem pulse_rounding_off_by_one :
    F32.round (8589933 / 17179869184) = F32.fin (8589933 / 17179869184) ∧
    clampedValue (F32.fin (8589933 / 17179869184)) = 8589933 / 17179869184 ∧
    pulseWidth (F32.fin (8589933 / 17179869184)) = 1001 ∧
    ⌊(1000 + 1000 * (8589933 / 17179869184) + 1 / 2 : ℚ)⌋ = 1000 ∧
    (1 / 2 : ℚ) < |(1001 : ℚ) - (1000 + 1000 * (8589933 / 17179869184))| := by
  have hcv : clampedValue (F32.fin (8589933 / 17179869184)) = 8589933 / 17179869184 := by
    norm_num [clampedValue]
  have hrep : F32.round (8589933 / 17179869184) = F32.fin (8589933 / 17179869184) := by
    have h := F32.round_exact 8589933 (-34) (by norm_num) (by norm_num)
      (by norm_num [abs_of_pos])
    have e : ((8589933 : Int) : ℚ) * 2 ^ (-34 : Int) = 8589933 / 17179869184 := by norm_num
    rw [e] at h
    exact h
  have hmul : F32.round (8589933 / 17179869184 * 1000) = F32.fin (16777213 / 33554432) := by
    have h := F32.round_eval (8589933 / 17179869184 * 1000) (-2) 16777213
      (by norm_num [abs_of_pos]) (by norm_num [abs_of_pos]) (by norm_num) (by norm_num)
      (by norm_num) (by norm_num)
    rw [h]; norm_num
  have hadd1 : F32.round (1000 + 16777213 / 33554432) = F32.fin (2001 / 2) := by
    have h := F32.round_eval (1000 + 16777213 / 33554432) 9 16392192
      (by norm_num [abs_of_pos]) (by norm_num [abs_of_pos]) (by norm_num) (by norm_num)
      (by norm_num) (by norm_num)
    rw [h]; norm_num
  have hadd2 : F32.round (2001 / 2 + 1 / 2) = F32.fin 1001 := by
    have h := F32.round_intCast 1001 (by norm_num)
    have e : ((1001 : Int) : ℚ) = 2001 / 2 + 1 / 2 := by norm_num
    rw [e] at h
    rw [h]; norm_num
  have h1000 : F32.ofInt 1000 = F32.fin 1000 := by
    have := F32.round_intCast 1000 (by norm_num)
    simpa [F32.ofInt] using this
  have hexpr : pulseExpr (F32.fin (8589933 / 17179869184)) = F32.fin 1001 := by
    have e1 : F32.mul (F32.fin (8589933 / 17179869184)) (F32.fin 1000)
        = F32.fin (16777213 / 33554432) := hmul
    have e2 : F32.add (F32.fin 1000) (F32.fin (16777213 / 33554432))
        = F32.fin (2001 / 2) := hadd1
    have e3 : F32.add (F32.fin (2001 / 2)) (F32.fin (1 / 2)) = F32.fin 1001 := hadd2
    unfold pulseExpr
    rw [clampDuty_of_ne_nan _ (fun h => by cases h), hcv, h1000, e1, e2, e3]
  have hmap : mapPulse (F32.fin (8589933 / 17179869184)) = 1001 := by
    have h := toUInt16_fin 1001 (by norm_num) (by norm_num)
    have hf : ⌊(1001 : ℚ)⌋ = 1001 := by
      rw [Int.floor_eq_iff]; norm_num
    rw [hf] at h
    unfold mapPulse
    rw [hexpr]
    exact_mod_cast h
  refine ⟨hrep, hcv, ?_, ?_, ?_⟩
  · unfold pulseWidth
    rw [hmap]
    decide
  · rw [Int.floor_eq_iff]; norm_num
  · norm_num [abs_of_pos]

end PWMHW_OUT

namespace SerialEcho

/-! ## What an accepted frame decodes to -/

theorem strncpy_length (dst src : List Nat) (n : Nat) (hn : n ≤ dst.length) :
    (strncpy dst src n).length = dst.length := by
  unfold strncpy
  have h : ((cstr src).take n).length ≤ n := by
    rw [List.length_take]; exact Nat.min_le_left _ _
  simp only [List.length_append, List.length_replicate, List.length_drop]
  omega

/-- The result of `process_command`, read off its control flow: when a Command is
published the prefix was found at some offset `i`, the payload length is in `8..31`, and
the fields are `atoi` of the bytes at `cbuf + 2`, `cbuf + 4` and `cbuf + 6`. -/
theorem process_command_eq_some (cmd : List Nat) (len : Int) (now : Nat) (m : pwm_control_s)
    (h : process_command cmd len now = some m) :
    ∃ i, strstr cmd PREFIX = some i ∧
      8 ≤ len - ((i + 8 : Nat) : Int) - 1 ∧ len - ((i + 8 : Nat) : Int) - 1 ≤ 31 ∧
      m = { timestamp := now
            port := atoi (memcpy [0, 0, 0] ((strncpy (List.replicate 32 0) (cmd.drop (i + 8))
              (len - ((i + 8 : Nat) : Int) - 1).toNat).drop 2) 2)
            duty := F32.div (F32.ofInt (atoi (memcpy [0, 0, 0] ((strncpy (List.replicate 32 0)
              (cmd.drop (i + 8)) (len - ((i + 8 : Nat) : Int) - 1).toNat).drop 4) 2)))
              (F32.fin 100)
            frequency := atoi (memcpy [0, 0, 0, 0, 0] ((strncpy (List.replicate 32 0)
              (cmd.drop (i + 8)) (len - ((i + 8 : Nat) : Int) - 1).toNat).drop 6) 4) } := by
  unfold process_command at h
  by_cases hlen : len ≤ 0
  · simp [hlen] at h
  · simp only [hlen, if_false] at h
    cases hs : strstr cmd PREFIX with
    | none => simp [hs] at h
    | some i =>
      simp only [hs] at h
      by_cases hc : len - ((i + 8 : Nat) : Int) - 1 ≤ 0 ∨ len - ((i + 8 : Nat) : Int) - 1 ≥ 32
      · simp only [hc, if_true] at h
        cases h
      · simp only [hc, if_false] at h
        by_cases hok : strncmp (strncpy (List.replicate 32 0) (cmd.drop (i + 8))
            (len - ((i + 8 : Nat) : Int) - 1).toNat) OPCODE_AA 2 = 0
            ∧ len - ((i + 8 : Nat) : Int) - 1 ≥ 8
        · rw [if_pos hok] at h
          exact ⟨i, rfl, hok.2, by omega, (Option.some.inj h).symm⟩
        · rw [if_neg hok] at h
          cases h

theorem atoiDigits_succ_le (l : List Nat) : ∀ acc : Nat,
    atoiDigits l acc + 1 ≤ (acc + 1) * 10 ^ l.length := by
  induction l with
  | nil => intro acc; simp [atoiDigits]
  | cons c cs ih =>
    intro acc
    by_cases hd : isdigit c = true
    · have hc : c - 48 ≤ 9 := by
        simp [isdigit] at hd; omega
      have h1 := ih (acc * 10 + (c - 48))
      have h2 : (acc * 10 + (c - 48) + 1) * 10 ^ cs.length ≤ ((acc + 1) * 10) * 10 ^ cs.length :=
        Nat.mul_le_mul_right _ (by omega)
      simp only [atoiDigits, hd, if_true, List.length_cons, pow_succ]
      calc atoiDigits cs (acc * 10 + (c - 48)) + 1
          ≤ (acc * 10 + (c - 48) + 1) * 10 ^ cs.length := h1
        _ ≤ ((acc + 1) * 10) * 10 ^ cs.length := h2
        _ = (acc + 1) * (10 ^ cs.length * 10) := by ring
    · have hp : 1 ≤ 10 ^ (c :: cs).length := Nat.one_le_pow _ _ (by norm_num)
      simp only [atoiDigits, hd, if_false]
      calc acc + 1 = (acc + 1) * 1 := by ring
        _ ≤ (acc + 1) * 10 ^ (c :: cs).length := Nat.mul_le_mul_left _ hp

/-- A field of at most 2 characters decodes to an integer between -9 and 99. -/
theorem atoi_bounds_two (field : List Nat) (h : field.length ≤ 2) :
    -9 ≤ atoi field ∧ atoi field ≤ 99 := by
  have hr : (field.dropWhile isspace).length ≤ 2 :=
    le_trans (List.dropWhile_suffix isspace).length_le h
  unfold atoi
  split
  · next r heq =>
    have hl : r.length ≤ 1 := by rw [heq] at hr; simpa using hr
    have hb := atoiDigits_succ_le r 0
    have hp : 10 ^ r.length ≤ 10 ^ 1 := Nat.pow_le_pow_right (by norm_num) hl
    constructor <;> omega
  · next r heq =>
    have hl : r.length ≤ 1 := by rw [heq] at hr; simpa using hr
    have hb := atoiDigits_succ_le r 0
    have hp : 10 ^ r.length ≤ 10 ^ 1 := Nat.pow_le_pow_right (by norm_num) hl
    constructor <;> omega
  · have hb := atoiDigits_succ_le (field.dropWhile isspace) 0
    have hp : 10 ^ (field.dropWhile isspace).length ≤ 10 ^ 2 :=
      Nat.pow_le_pow_right (by norm_num) hr
    constructor <;> omega

/-- The duty published for an accepted frame is `atoi` of the 2 bytes at `cbuf + 4`,
converted to `float` and divided by `100.0f`. -/
theorem process_command_duty (cmd : List Nat) (len : Int) (now : Nat) (m : pwm_control_s)
    (h : process_command cmd len now = some m) :
    ∃ i, strstr cmd PREFIX = some i ∧
      (((strncpy (List.replicate 32 0) (cmd.drop (i + 8))
        (len - ((i + 8 : Nat) : Int) - 1).toNat).drop 4).take 2).length = 2 ∧
      m.duty = F32.div (F32.ofInt (atoi (((strncpy (List.replicate 32 0) (cmd.drop (i + 8))
        (len - ((i + 8 : Nat) : Int) - 1).toNat).drop 4).take 2))) (F32.fin 100) := by
  obtain ⟨i, hs, h8, h31, hm⟩ := process_command_eq_some cmd len now m h
  have hl := strncpy_length (List.replicate 32 0) (cmd.drop (i + 8))
    (len - ((i + 8 : Nat) : Int) - 1).toNat (by rw [List.length_replicate]; omega)
  rw [List.length_replicate] at hl
  refine ⟨i, hs, by rw [List.length_take, List.length_drop, hl]; rfl, ?_⟩
  rw [hm]
  show F32.div (F32.ofInt (atoi (memcpy [0, 0, 0] _ 2))) (F32.fin 100) = _
  have e : ∀ x : List Nat, memcpy [0, 0, 0] x 2 = x.take 2 ++ 0 :: [] := by
    intro x; simp [memcpy]
  rw [e, atoi_append_zero]

end SerialEcho

namespace PWMHW_OUT

/-- The pulse width for the duty `(float)d / 100.0f`, `d` between -9 and 99: the rounding
errors of the division and of the pulse expression stay far below 1/2, so the pulse width
is exactly `1000 + 10 * max 0 d`. -/
theorem pulseWidth_of_hundredths (d : Int) (h1 : -9 ≤ d) (h2 : d ≤ 99) :
    (pulseWidth (F32.div (F32.ofInt d) (F32.fin 100)) : Int) = 1000 + 10 * max 0 d := by
  have hd1 : (-9 : ℚ) ≤ (d : ℚ) := by exact_mod_cast h1
  have hd2 : (d : ℚ) ≤ 99 := by exact_mod_cast h2
  have hx : |(d : ℚ) / 100| < 2 ^ (0 : Int) := by
    rw [zpow_zero, abs_lt]
    constructor <;> linarith
  obtain ⟨y, hy, ey⟩ := F32.round_error ((d : ℚ) / 100) 0 hx (by norm_num) (by norm_num)
  have q25 : (2 : ℚ) ^ ((0 : Int) - 25) = 1 / 33554432 := by norm_num
  rw [q25, abs_le] at ey
  have hdiv : F32.div (F32.ofInt d) (F32.fin 100) = F32.fin y := by
    rw [SerialEcho.div_hundred d (by rw [abs_lt]; constructor <;> omega), hy]
  have hne : F32.fin y ≠ F32.nan := fun h => by cases h
  -- the clamped duty is within 2 ^ -25 of max 0 d / 100
  have hc : |clampedValue (F32.fin y) - ((max 0 d : Int) : ℚ) / 100| ≤ 1 / 33554432 := by
    simp only [clampedValue]
    by_cases hneg : d < 0
    · have hdq : (d : ℚ) ≤ -1 := by exact_mod_cast (by omega : d ≤ -1)
      have hy0 : y ≤ 0 := by linarith [ey.2]
      rw [min_eq_left (by linarith), max_eq_left hy0, max_eq_left (le_of_lt hneg)]
      norm_num
    · have hnn : 0 ≤ d := not_lt.mp hneg
      rw [max_eq_right hnn]
      by_cases hz : d = 0
      · subst hz
        have hy0 : y = 0 := by
          have : F32.round (((0 : Int) : ℚ) / 100) = F32.fin 0 := by simp [F32.round]
          rw [this] at hy
          exact (F32.fin.inj hy).symm
        rw [hy0]
        norm_num
      · have hdq : (1 : ℚ) ≤ (d : ℚ) := by exact_mod_cast (by omega : 1 ≤ d)
        have hy0 : 0 ≤ y := by linarith [ey.1]
        have hy1 : y ≤ 1 := by linarith [ey.2]
        rw [min_eq_left hy1, max_eq_right hy0, abs_le]
        exact ⟨by linarith [ey.1], by linarith [ey.2]⟩
  rw [abs_le] at hc
  obtain ⟨v, _, he, hm, _⟩ := pulseWidth_near (F32.fin y) hne
  rw [abs_le] at he
  rw [hdiv, hm, Int.floor_eq_iff]
  generalize max 0 d = k at hc ⊢
  push_cast
  constructor <;> linarith [hc.1, hc.2, he.1, he.2]

/-- C19: for every call of `process_command` that publishes a Command `m`, when an
initialized driver processes `m` and makes a hardware write, the write is
`up_pwm_servo_set(channel, pulse)` then `up_pwm_update(ALL_MASK)` with `channel` in
`0..7` and `pulse = 1000 + 10 * max 0 d`, where `d`, between -9 and 99, is `atoi` of the
2-character duty field (the 2 bytes at `cbuf + 4`); the duty is `(float)d / 100.0f`.
Hence the pulse width lies in `[1000, 1990]` and is never 2000 (binary32 arithmetic, in
which the claimed values hold exactly). -/
theorem serial_to_hardware_pulse (cmd : List Nat) (len : Int) (now : Nat) (m : pwm_control_s)
    (s : Driver) (hparse : SerialEcho.process_command cmd len now = some m)
    (hinit : s._initialized = true) (hwrite : (step s (some m)).2 ≠ []) :
    ∃ (i : Nat) (d : Int),
      SerialEcho.strstr cmd SerialEcho.PREFIX = some i ∧
      d = SerialEcho.atoi (((SerialEcho.strncpy (List.replicate 32 0) (cmd.drop (i + 8))
        (len - ((i + 8 : Nat) : Int) - 1).toNat).drop 4).take 2) ∧
      -9 ≤ d ∧ d ≤ 99 ∧ m.duty = F32.div (F32.ofInt d) (F32.fin 100) ∧
      step s (some m)
        = (s, [HwCall.up_pwm_servo_set (channelOf m.port) (pulseWidth m.duty),
               HwCall.up_pwm_update ALL_MASK]) ∧
      channelOf m.port ≤ 7 ∧
      (pulseWidth m.duty : Int) = 1000 + 10 * max 0 d ∧
      1000 ≤ pulseWidth m.duty ∧ pulseWidth m.duty ≤ 1990 ∧ pulseWidth m.duty ≠ 2000 := by
  obtain ⟨i, hs, hlen2, hduty⟩ := SerialEcho.process_command_duty cmd len now m hparse
  obtain ⟨hlo, hhi⟩ := SerialEcho.atoi_bounds_two _ (le_of_eq hlen2)
  have hport : 1 ≤ m.port ∧ m.port ≤ 8 := by
    by_contra hv
    have hv2 : m.port < 1 ∨ m.port > (MAX_PORTS : Int) := by
      simp only [MAX_PORTS]; omega
    exact hwrite (by simp [step, hv2])
  have hv : ¬ (m.port < 1 ∨ m.port > (MAX_PORTS : Int)) := by
    simp only [MAX_PORTS]; omega
  have hch : channelOf m.port ≤ 7 := by
    unfold channelOf
    rw [Int.emod_eq_of_lt (by omega) (by omega)]
    omega
  have hpw := pulseWidth_of_hundredths _ hlo hhi
  rw [← hduty] at hpw
  refine ⟨i, _, hs, rfl, hlo, hhi, hduty, by simp [step, hv, hinit], hch, hpw, ?_, ?_, ?_⟩ <;>
    omega

theorem serial_to_hardware_pulse_witness :
    SerialEcho.process_command (SerialEcho.bytes "-prints:AA01500255;" ++ [0]) 19 0
      = some { timestamp := 0, port := 1, duty := F32.fin (50 / 100), frequency := 255 } ∧
    (step { _initialized := true }
      (some { timestamp := 0, port := 1, duty := F32.fin (50 / 100), frequency := 255 })).2 ≠ [] ∧
    pulseWidth (F32.fin (50 / 100)) ≤ 1990 := by
  have hparse : SerialEcho.process_command (SerialEcho.bytes "-prints:AA01500255;" ++ [0]) 19 0
      = some { timestamp := 0, port := 1, duty := F32.fin (50 / 100), frequency := 255 } := by
    have h := SerialEcho.parseFrame_AA [] [48, 49, 53, 48, 48, 50, 53, 53] 59 0
      (by simp) (by simp) (by decide) (by decide) (by decide)
    have e : SerialEcho.bytes "-prints:AA01500255;"
        = [] ++ SerialEcho.PREFIX ++ SerialEcho.OPCODE_AA ++ [48, 49, 53, 48, 48, 50, 53, 53]
          ++ [59] := by decide
    have a1 : SerialEcho.atoi (List.take 2 [48, 49, 53, 48, 48, 50, 53, 53]) = 1 := by decide
    have a2 : SerialEcho.atoi (List.take 2 (List.drop 2 [48, 49, 53, 48, 48, 50, 53, 53])) = 50 := by
      decide
    have a3 : SerialEcho.atoi (List.take 4 (List.drop 4 [48, 49, 53, 48, 48, 50, 53, 53])) = 255 := by
      decide
    rw [a1, a2, a3, ← e] at h
    have hl : ((SerialEcho.bytes "-prints:AA01500255;").length : Int) = 19 := by decide
    unfold SerialEcho.parseFrame at h
    rw [hl, SerialEcho.div_fifty] at h
    exact h
  have hwrite : (step { _initialized := true }
      (some { timestamp := 0, port := 1, duty := F32.fin (50 / 100), frequency := 255 })).2 ≠ [] := by
    simp [step, MAX_PORTS]
  refine ⟨hparse, hwrite, ?_⟩
  obtain ⟨_, _, _, _, _, _, _, _, _, _, _, h, _⟩ :=
    serial_to_hardware_pulse _ 19 0 _ { _initialized := true } hparse rfl hwrite
  exact h

end PWMHW_OUT
